import Mathlib

/-!
# QPSK transmit pipeline: modulation, noise, framing, serialisation

A shallow embedding of the C programs of the repository
(`modulation/random.c`, `modulation/QPSK.c`, `modulation/noise.c`,
`modulation/noise-combo.c`, `networking/UDP_final.c`, `networking/UDP_float.c`,
`networking/UDP_ASCII.c`, `utils/float.c`) and of `config/config.h`.

Conventions of the embedding:

* `double` arithmetic is exact arithmetic in a field `α`; the value returned by
  the library call `sqrt(2)` is the argument `sqrt2`, and the library functions
  `sqrt` and `log` are arguments where they are applied to run-time values;
* a `float` is its IEEE-754 binary32 bit pattern (`Float32.bits`), the
  `double → float` conversion C inserts at an assignment or a call is the
  argument `narrow`;
* an array is a `List`; an array that C leaves uninitialised is an argument; a read or
  a write outside an array has no defined result (`none`);
* a string or a byte buffer is the list of its bytes;
* `rand()` is a stream `Nat → Nat`: its `k`-th result.
-/

namespace QPSK

/-! ## Constants of the programs -/

/-- `#define BITS_COUNT 40`. -/
def BITS_COUNT : Nat := 40

/-- `#define SYMBOLS_COUNT 20`. -/
def SYMBOLS_COUNT : Nat := 20

/-- `#define COMBINATION_LENGTH 256*3` of `UDP_final.c`. -/
def COMBINATION_LENGTH : Nat := 256 * 3

/-! ## Modulation (`QPSK.c` 44-74, `UDP_final.c` 84-105) -/

section Modulation

variable {α : Type} [Field α]

/-- The `if / else if` chain of the modulation loop. `symbol_I` and `symbol_Q`
are the variables of `main`: when no branch is taken they keep the value they
had before. -/
def mapBits (sqrt2 : α) (bit1 bit2 : Int) (symbol_I symbol_Q : α) : α × α :=
  if bit1 = 0 ∧ bit2 = 0 then (1 / sqrt2, 1 / sqrt2)
  else if bit1 = 0 ∧ bit2 = 1 then (-1 / sqrt2, 1 / sqrt2)
  else if bit1 = 1 ∧ bit2 = 0 then (1 / sqrt2, -1 / sqrt2)
  else if bit1 = 1 ∧ bit2 = 1 then (-1 / sqrt2, -1 / sqrt2)
  else (symbol_I, symbol_Q)

/-- The loop `for (i = 0, j = 0; i < N; i += 2, j++)` over the bits not yet
consumed: each pass reads `data_bits[i]` and `data_bits[i+1]`, maps them and
stores `(symbols_I[j], symbols_Q[j])`. A pass that would read `data_bits[i+1]`
past the end of the array has no defined result (`none`). -/
def modulateLoop (sqrt2 : α) : List Int → α → α → Option (List (α × α))
  | [], _, _ => some []
  | [_], _, _ => none
  | bit1 :: bit2 :: rest, symbol_I, symbol_Q =>
    let s := mapBits sqrt2 bit1 bit2 symbol_I symbol_Q
    (modulateLoop sqrt2 rest s.1 s.2).map (fun symbols => s :: symbols)

/-- The constellation table as the specification writes it. -/
def constellationTable (sqrt2 : α) (b0 b1 : Int) : Option (α × α) :=
  if b0 = 0 ∧ b1 = 0 then some (1 / sqrt2, 1 / sqrt2)
  else if b0 = 0 ∧ b1 = 1 then some (-(1 / sqrt2), 1 / sqrt2)
  else if b0 = 1 ∧ b1 = 0 then some (1 / sqrt2, -(1 / sqrt2))
  else if b0 = 1 ∧ b1 = 1 then some (-(1 / sqrt2), -(1 / sqrt2))
  else none

end Modulation

/-! ## Gray coding of the table (`QPSK.c` 48-66) -/

/-- Number of positions in which the bit pairs `(a0, a1)` and `(b0, b1)` differ. -/
def hammingDistance (a0 a1 b0 b1 : Int) : Nat :=
  (if a0 = b0 then 0 else 1) + (if a1 = b1 then 0 else 1)

/-- The components `x` and `y` have different signs. -/
def differInSign {α : Type} [LinearOrderedField α] (x y : α) : Prop :=
  SignType.sign x ≠ SignType.sign y

/-- Two constellation points are adjacent when they differ in the sign of exactly
one of `I` and `Q`. -/
def adjacentPoints {α : Type} [LinearOrderedField α] (p q : α × α) : Prop :=
  (differInSign p.1 q.1 ∧ ¬ differInSign p.2 q.2) ∨
    (¬ differInSign p.1 q.1 ∧ differInSign p.2 q.2)

/-- Two constellation points are diagonally opposite when both `I` and `Q` differ
in sign. -/
def oppositePoints {α : Type} [LinearOrderedField α] (p q : α × α) : Prop :=
  differInSign p.1 q.1 ∧ differInSign p.2 q.2

/-! ## Loops and arrays -/

/-- The passes `i = lo, lo+1, ...` of a counting loop, `count` of them; a pass
without a defined result ends the run with `none`. -/
def forLoopFrom {σ : Type} (body : Nat → σ → Option σ) : Nat → Nat → σ → Option σ
  | 0, _, s => some s
  | count + 1, lo, s => (body lo s).bind (forLoopFrom body count (lo + 1))

/-- The loop `for (i = lo; i < hi; i++) body`. -/
def forLoop {σ : Type} (lo hi : Nat) (body : Nat → σ → Option σ) (s : σ) : Option σ :=
  forLoopFrom body (hi - lo) lo s

/-! ## The padded frame (`UDP_final.c` 141-172) -/

/-- A `float`: its IEEE-754 binary32 bit pattern. -/
structure Float32 where
  bits : Nat
  isLt : bits < 2 ^ 32
deriving DecidableEq, Repr

/-- The `float` that the integer constant `0` converts to: positive zero, pattern
`0x00000000`. -/
def Float32.zero : Float32 := ⟨0, by decide⟩

/-- The array `comb` together with the record of the indices assigned so far, in
the order of the assignments. -/
structure CombState where
  comb : List Float32
  assigned : List Nat
deriving DecidableEq, Repr

/-- The assignment `comb[i] = v`; it has a defined result only inside the array. -/
def CombState.assign (st : CombState) (i : Nat) (v : Float32) : Option CombState :=
  if i < st.comb.length then some ⟨st.comb.set i v, st.assigned ++ [i]⟩ else none

/-- Step 5 of `UDP_final.c`: the five fill loops over `comb`, which C leaves
uninitialised (the argument `comb`). The right-hand sides that are `double` are
converted to `float` by `narrow`. -/
def buildComb {α : Type} (narrow : α → Float32)
    (qpsk_symbol_real qpsk_symbol_imag : List α) (comb : List Float32) : Option CombState :=
  (forLoop 0 256 (fun i st => st.assign i Float32.zero) ⟨comb, []⟩).bind fun st =>
  (forLoop 256 276 (fun i st =>
      (qpsk_symbol_real[i - 256]?).bind fun x => st.assign i (narrow x)) st).bind fun st =>
  (forLoop 276 (256 * 2) (fun i st => st.assign i Float32.zero) st).bind fun st =>
  (forLoop (256 * 2) (256 * 2 + 20) (fun i st =>
      (qpsk_symbol_imag[i - 256 * 2]?).bind fun x => st.assign i (narrow x)) st).bind fun st =>
  forLoop (256 * 2 + 20) COMBINATION_LENGTH (fun i st => st.assign i Float32.zero) st

/-! ## Serialisation (`floatToBytes`, `UDP_float.c` 120-142, `UDP_final.c` 202) -/

/-- `sizeof(float)`. -/
def sizeofFloat : Nat := 4

/-- The order in which the host stores the bytes of a multi-byte object. -/
inductive ByteOrder where
  | littleEndian
  | bigEndian
deriving DecidableEq, Repr

/-- The object representation of a `float` on the host: the four bytes of its bit
pattern in the order the host stores them. -/
def objectRepr (host : ByteOrder) (value : Float32) : List Nat :=
  match host with
  | .littleEndian =>
    [value.bits % 256, value.bits / 2 ^ 8 % 256, value.bits / 2 ^ 16 % 256,
      value.bits / 2 ^ 24 % 256]
  | .bigEndian =>
    [value.bits / 2 ^ 24 % 256, value.bits / 2 ^ 16 % 256, value.bits / 2 ^ 8 % 256,
      value.bits % 256]

/-- The call `memcpy(dst + off, src, n)`: the `n` bytes at `dst + off` are replaced by
the first `n` bytes of `src`. It has a defined result only when both objects have the
`n` bytes. -/
def memcpy (dst : List Nat) (off : Nat) (src : List Nat) (n : Nat) : Option (List Nat) :=
  if off + n ≤ dst.length ∧ n ≤ src.length then
    some (dst.take off ++ src.take n ++ dst.drop (off + n))
  else none

/-- `void floatToBytes(float value, unsigned char *bytes)` with `bytes = buffer + off`:
`memcpy(bytes, &value, sizeof(float))`. -/
def floatToBytes (host : ByteOrder) (value : Float32) (buffer : List Nat) (off : Nat) :
    Option (List Nat) :=
  memcpy buffer off (objectRepr host value) sizeofFloat

/-- The bytes that `sendto(sockfd, buf, len, ...)` hands to the transport: the first
`len` bytes of the object `buf` points to. -/
def sendtoPayload (object : List Nat) (len : Nat) : Option (List Nat) :=
  if len ≤ object.length then some (object.take len) else none

/-- One pass of the loop of step 5 of `UDP_float.c` over the state `(j, byteBuffer)`:
`floatToBytes(symbols[i].real, byteBuffer + j);`
`floatToBytes(symbols[i].imag, byteBuffer + j + sizeof(float));` and then
`j += sizeof(float) * 2`. The `double` components become `float` arguments through
`narrow`. -/
def symbolsToBytesPass {α : Type} (host : ByteOrder) (narrow : α → Float32)
    (symbols : List (α × α)) (i : Nat) (st : Nat × List Nat) : Option (Nat × List Nat) :=
  (symbols[i]?).bind fun symbol =>
  (floatToBytes host (narrow symbol.1) st.2 st.1).bind fun buffer =>
  (floatToBytes host (narrow symbol.2) buffer (st.1 + sizeofFloat)).map fun buffer =>
  (st.1 + sizeofFloat * 2, buffer)

/-- Step 5 of `UDP_float.c`: the loop
`for (i = 0, j = 0; i < SYMBOLS_COUNT; i++, j += sizeof(float) * 2)`. -/
def symbolsToBytes {α : Type} (host : ByteOrder) (narrow : α → Float32)
    (symbols : List (α × α)) (byteBuffer : List Nat) : Option (Nat × List Nat) :=
  forLoop 0 SYMBOLS_COUNT (symbolsToBytesPass host narrow symbols) (0, byteBuffer)

/-- Steps 5 and 7 of `UDP_float.c`: `byteBuffer` is declared with
`SYMBOLS_COUNT * sizeof(float) * 2` bytes (its content before the loop is the argument),
filled, and `sizeof(byteBuffer)` bytes of it are sent. -/
def floatPayload {α : Type} (host : ByteOrder) (narrow : α → Float32)
    (symbols : List (α × α)) (byteBuffer : List Nat) : Option (List Nat) :=
  (symbolsToBytes host narrow symbols byteBuffer).bind fun st =>
    sendtoPayload st.2 (SYMBOLS_COUNT * sizeofFloat * 2)

/-- The eight bytes of one symbol on the wire: the encoding of its real part, then the
encoding of its imaginary part. -/
def symbolBytes {α : Type} (host : ByteOrder) (narrow : α → Float32) (symbol : α × α) :
    List Nat :=
  objectRepr host (narrow symbol.1) ++ objectRepr host (narrow symbol.2)

/-- The object representation of the array `comb`: the representations of its elements
one after the other. -/
def arrayRepr (host : ByteOrder) (comb : List Float32) : List Nat :=
  comb.flatMap (objectRepr host)

/-- The send of `UDP_final.c`: `sendto(sockfd, comb, (COMBINATION_LENGTH)*4, ...)`. -/
def finalPayload (host : ByteOrder) (comb : List Float32) : Option (List Nat) :=
  sendtoPayload (arrayRepr host comb) (COMBINATION_LENGTH * 4)

/-! ## Channel noise (`noise-combo.c` 47-69, `noise.c` 68-79, `UDP_final.c` 107-114) -/

section Noise

variable {α : Type} [LinearOrderedField α]

/-- `#define NOISE_STD_DEV 0.05` of `noise.c`, `noise-combo.c` and `UDP_float.c`. -/
def NOISE_STD_DEV : α := 5 / 100

/-- `#define NOISE_STD_DEV 0.1` of `UDP_ASCII.c`. -/
def NOISE_STD_DEV_ascii : α := 1 / 10

/-- `#define NOISE_STD_DEV 0.5` of `UDP_final.c`. -/
def NOISE_STD_DEV_final : α := 5 / 10

/-- The expression `(double)rand() / RAND_MAX` for the result `r` of the call. `RAND_MAX`
is the constant of `<stdlib.h>`, an argument here. -/
def unitDraw (RAND_MAX r : Nat) : α := (r : α) / (RAND_MAX : α)

/-- The uniform noise expression `NOISE_STD_DEV * (2 * ((double)rand() / RAND_MAX) - 1)`. -/
def uniformNoise (NOISE_STD_DEV : α) (RAND_MAX r : Nat) : α :=
  NOISE_STD_DEV * (2 * unitDraw RAND_MAX r - 1)

/-- The four noise statements of the loop body of `noise-combo.c`: `noise_real` from the
draw `r1`, `noise_imag` from the draw `r2`, `symbol.real += noise_real;`
`symbol.imag += noise_imag;`. -/
def addUniformNoise (NOISE_STD_DEV : α) (RAND_MAX : Nat) (symbol : α × α) (r1 r2 : Nat) :
    α × α :=
  let noise_real := uniformNoise NOISE_STD_DEV RAND_MAX r1
  let noise_imag := uniformNoise NOISE_STD_DEV RAND_MAX r2
  (symbol.1 + noise_real, symbol.2 + noise_imag)

/-- Step 2 of `noise-combo.c` (and of `UDP_float.c`, `UDP_ASCII.c`): the modulation loop
with the noise added in the same pass. `symbol` is declared inside the loop body, so a
pass in which no branch is taken starts from the indeterminate value `uninit`; `calls`
counts the calls of `rand()` made so far. -/
def modulateNoisyLoop (sqrt2 NOISE_STD_DEV : α) (RAND_MAX : Nat) (rand : Nat → Nat)
    (uninit : α × α) : List Int → Nat → Option (List (α × α))
  | [], _ => some []
  | [_], _ => none
  | bit1 :: bit2 :: rest, calls =>
    let symbol := mapBits sqrt2 bit1 bit2 uninit.1 uninit.2
    let symbol := addUniformNoise NOISE_STD_DEV RAND_MAX symbol (rand calls) (rand (calls + 1))
    (modulateNoisyLoop sqrt2 NOISE_STD_DEV RAND_MAX rand uninit rest (calls + 2)).map
      (fun symbols => symbol :: symbols)

/-- The library call `log(x)` as a function into the reals: for `x = 0` it returns
`-HUGE_VAL` (minus infinity) and for `x < 0` a NaN, which are not real numbers
(`none`); `log` is the real logarithm on the positive numbers. -/
def libmLog (log : α → α) (x : α) : Option α :=
  if 0 < x then some (log x) else none

/-- The library call `sqrt(x)` as a function into the reals: for `x < 0` it returns a
NaN (`none`); `sqrt` is the real square root on the non-negative numbers. -/
def libmSqrt (sqrt : α → α) (x : α) : Option α :=
  if 0 ≤ x then some (sqrt x) else none

/-- The noise expression of `noise.c` and `UDP_final.c`,
`NOISE_STD_DEV * ((double) rand() / RAND_MAX) * sqrt(-2 * log((double) rand() / RAND_MAX))`,
with `r1` the draw that is multiplied and `r2` the draw under the logarithm. An
infinity or NaN under way makes the product an infinity or a NaN (`none`). -/
def gaussNoise (sqrt log : α → α) (NOISE_STD_DEV : α) (RAND_MAX r1 r2 : Nat) : Option α :=
  (libmLog log (unitDraw RAND_MAX r2)).bind fun l =>
  (libmSqrt sqrt (-2 * l)).map fun root =>
  NOISE_STD_DEV * unitDraw RAND_MAX r1 * root

/-- Step 3 of `noise.c` and of `UDP_final.c`: the loop that adds `noise_I` to
`symbols_I[i]` and `noise_Q` to `symbols_Q[i]`. Each pass calls `rand()` four times;
the calls of one expression are taken from left to right. A component is `none` when it
is not a real number any more. -/
def gaussNoiseLoop (sqrt log : α → α) (NOISE_STD_DEV : α) (RAND_MAX : Nat)
    (rand : Nat → Nat) : List (α × α) → Nat → List (Option α × Option α)
  | [], _ => []
  | symbol :: rest, calls =>
    let noise_I := gaussNoise sqrt log NOISE_STD_DEV RAND_MAX (rand calls) (rand (calls + 1))
    let noise_Q :=
      gaussNoise sqrt log NOISE_STD_DEV RAND_MAX (rand (calls + 2)) (rand (calls + 3))
    (noise_I.map (symbol.1 + ·), noise_Q.map (symbol.2 + ·)) ::
      gaussNoiseLoop sqrt log NOISE_STD_DEV RAND_MAX rand rest (calls + 4)

end Noise

/-! ## Bit generation (`random.c` 25-37, step 1 of every program) -/

/-- The loop `for (i = 0; i < count; i++) data_bits[i] = rand() % 2;` with `count` the
constant `BITS_COUNT`; `data_bits` is the array as declared (not initialised), the loop
makes the first calls of `rand()`, and `%` is the remainder of C. -/
def generateBits (rand : Nat → Nat) (count : Nat) (data_bits : List Int) :
    Option (List Int) :=
  forLoop 0 count (fun i bits =>
    if i < bits.length then some (bits.set i (Int.tmod (rand i) 2)) else none) data_bits

/-! ## The byte conversion of the padded frame (`UDP_final.c` 181-185) -/

/-- Step 6 of `UDP_final.c`: `byteBuffer` is declared with
`SYMBOLS_COUNT * sizeof(float) * 2` bytes and the loop
`for (i = 0; i < 768; i++) floatToBytes(comb[i], byteBuffer + 4*i);` runs over it. -/
def combToBytes (host : ByteOrder) (comb : List Float32) (byteBuffer : List Nat) :
    Option (List Nat) :=
  forLoop 0 768 (fun i buffer =>
    (comb[i]?).bind fun value => floatToBytes host value buffer (4 * i)) byteBuffer

/-! ## The transport step (`UDP_final.c` 187-210, `UDP_float.c` 127-149) -/

/-- What the transport step prints. -/
inductive Output where
  | socketCreationFailed
  | messageHasBeenSent
deriving DecidableEq, Repr

/-- What a run of the transport step leaves: the exit status, what was printed and the
number of `sendto` calls made. -/
structure RunResult where
  status : Int
  output : List Output
  sends : Nat
deriving DecidableEq, Repr

/-- The transport step of `main`, with the results of `socket(...)` and of the one
`sendto(...)` call as arguments: `if (sockfd == -1) { perror(...); return 1; }`, then
`sendto(...)` as an expression statement, `close`, the message and `return 0`. -/
def transmit (sockfd sendtoResult : Int) : RunResult :=
  if sockfd = -1 then ⟨1, [Output.socketCreationFailed], 0⟩
  else
    let _discarded := sendtoResult
    ⟨0, [Output.messageHasBeenSent], 1⟩

/-! ## The text payload (`UDP_ASCII.c` 93-103 and 120) -/

/-- `#define BUFFER_SIZE 256` of `UDP_ASCII.c`. -/
def BUFFER_SIZE : Nat := 256

/-- The call `snprintf(buff + offset, size, ...)` whose formatted text is `text` (bytes,
none of them 0): at most `size - 1` bytes of the text and a terminating 0 are stored, and
the length of the whole text is returned. `size` is the `int` value `BUFFER_SIZE - offset`
converted to `size_t`, so a negative value is a huge bound. The call has a defined
result only when `buff + offset` points into `buff` or just past its end and everything
stored lies inside `buff`. -/
def snprintfAt (buff : List Nat) (offset : Nat) (size : Int) (text : List Nat) :
    Option (List Nat × Nat) :=
  if buff.length < offset then none
  else if size = 0 then some (buff, text.length)
  else
    let room : Nat := if size < 0 then text.length else (size - 1).toNat
    let written := text.take room ++ [0]
    if offset + written.length ≤ buff.length then
      some (buff.take offset ++ written ++ buff.drop (offset + written.length), text.length)
    else none

/-- The text of one symbol, `"(%f,%f)"`; `fmt` is the rendering of a `double` by `%f`. -/
def symbolText {α : Type} (fmt : α → List Nat) (symbol : α × α) : List Nat :=
  [40] ++ fmt symbol.1 ++ [44] ++ fmt symbol.2 ++ [41]

/-- One pass of the loop of step 4 of `UDP_ASCII.c` over the state `(buff, offset)`:
`offset += snprintf(buff + offset, BUFFER_SIZE - offset, "(%f,%f)", ...)` and, except in
the last pass, `offset += snprintf(buff + offset, BUFFER_SIZE - offset, ",")`. -/
def symbolsToTextPass {α : Type} (fmt : α → List Nat) (qpsk_symbols : List (α × α))
    (i : Nat) (st : List Nat × Nat) : Option (List Nat × Nat) :=
  (qpsk_symbols[i]?).bind fun symbol =>
  (snprintfAt st.1 st.2 ((BUFFER_SIZE : Int) - (st.2 : Int)) (symbolText fmt symbol)).bind
    fun r =>
  if i < SYMBOLS_COUNT - 1 then
    (snprintfAt r.1 (st.2 + r.2) ((BUFFER_SIZE : Int) - ((st.2 + r.2 : Nat) : Int)) [44]).map
      fun r2 => (r2.1, st.2 + r.2 + r2.2)
  else some (r.1, st.2 + r.2)

/-- Step 4 of `UDP_ASCII.c`: `char buff[BUFFER_SIZE]; memset(buff, 0, sizeof(buff));`
`int offset = 0;` and the loop over the 20 symbols. -/
def symbolsToText {α : Type} (fmt : α → List Nat) (qpsk_symbols : List (α × α)) :
    Option (List Nat × Nat) :=
  forLoop 0 SYMBOLS_COUNT (symbolsToTextPass fmt qpsk_symbols)
    (List.replicate BUFFER_SIZE 0, 0)

/-- Step 5 of `UDP_ASCII.c`: `sendto(sockfd, buff, strlen(buff), ...)`, the bytes of
`buff` before its first 0. -/
def textPayload {α : Type} (fmt : α → List Nat) (qpsk_symbols : List (α × α)) :
    Option (List Nat) :=
  (symbolsToText fmt qpsk_symbols).map fun st => st.1.takeWhile (fun c => c ≠ 0)

/-- The text payload as the specification writes it: `"(r0,i0),(r1,i1),..."`, the texts
of the symbols joined by single commas. -/
def specText {α : Type} (fmt : α → List Nat) : List (α × α) → List Nat
  | [] => []
  | [symbol] => symbolText fmt symbol
  | symbol :: next :: rest => symbolText fmt symbol ++ [44] ++ specText fmt (next :: rest)

/-! ## Configuration (`config.h`) -/

/-- `typedef struct { char ip_address[64]; int port; } UDPConfig;` with `ip_address` as
the string it holds (the bytes before the terminating 0). -/
structure UDPConfig where
  ip_address : List Nat
  port : Int
deriving DecidableEq, Repr

/-- `#define DEFAULT_IP "127.0.0.1"`. -/
def DEFAULT_IP : List Nat := [49, 50, 55, 46, 48, 46, 48, 46, 49]

/-- `#define DEFAULT_PORT 9090`. -/
def DEFAULT_PORT : Int := 9090

/-- The string that `strncpy(dst, src, sizeof(dst) - 1); dst[sizeof(dst) - 1] = 0`
leaves in the 64-byte array `dst`: the first 63 bytes of the string `src`. -/
def strncpy63 (src : List Nat) : List Nat := src.take 63

/-- `void init_udp_config(UDPConfig *config)`. -/
def init_udp_config (config : UDPConfig) : UDPConfig :=
  { config with ip_address := strncpy63 DEFAULT_IP, port := DEFAULT_PORT }

/-- The white-space characters of `isspace` in the C locale: space and `\t \n \v \f \r`. -/
def isSpace (c : Nat) : Bool := c == 32 || (9 ≤ c && c ≤ 13)

/-- The string a `char` array holds: its bytes before the first 0. -/
def cString (bytes : List Nat) : List Nat := bytes.takeWhile (fun c => c ≠ 0)

/-- The strings that the successive calls `fgets(line, sizeof(line), file)` store, for a
file with the given bytes left and `line` read so far: a call stops after a newline, after
255 bytes, or at the end of the file. -/
def fgetsLines : List Nat → List Nat → List (List Nat)
  | [], line => if line = [] then [] else [line]
  | c :: rest, line =>
    if c = 10 ∨ (line ++ [c]).length = 255 then (line ++ [c]) :: fgetsLines rest []
    else fgetsLines rest (line ++ [c])

/-- The call `sscanf(line, "%63[^=]=%191s", key, value)`: its return value and the strings
stored in `key` and `value`. `%63[^=]` takes up to 63 bytes other than `=`, at least one;
then `=` must follow; `%191s` skips white space and takes up to 191 bytes that are not
white space, at least one. -/
def sscanfKeyValue (line : List Nat) : Int × List Nat × List Nat :=
  if line = [] then (-1, [], [])
  else
    let key := (line.takeWhile (fun c => c ≠ 61)).take 63
    if key = [] then (0, [], [])
    else
      match line.drop key.length with
      | 61 :: rest =>
        let value := ((rest.dropWhile isSpace).takeWhile (fun c => !isSpace c)).take 191
        if value = [] then (1, key, []) else (2, key, value)
      | _ => (1, key, [])

/-- The key of a line as `load_udp_config` compares it: the string `sscanf` stored in
`key`, cut at its first space or tab by the loop under `// Remove whitespace`. -/
def lineKey (line : List Nat) : List Nat :=
  (sscanfKeyValue (cString line)).2.1.takeWhile (fun c => c ≠ 32 ∧ c ≠ 9)

/-- The string `"ip"`. -/
def keyIp : List Nat := [105, 112]

/-- The string `"ip_address"`. -/
def keyIpAddress : List Nat := [105, 112, 95, 97, 100, 100, 114, 101, 115, 115]

/-- The string `"port"`. -/
def keyPort : List Nat := [112, 111, 114, 116]

/-- The body of the `while (fgets(...))` loop of `load_udp_config` for one stored `line`.
`atoi` is the library function. -/
def processLine (atoi : List Nat → Int) (config : UDPConfig) (line : List Nat) : UDPConfig :=
  if line.head? = some 35 ∨ line.head? = some 10 ∨ line.head? = some 13 then config
  else if (sscanfKeyValue (cString line)).1 = 2 then
    if lineKey line = keyIp ∨ lineKey line = keyIpAddress then
      { config with ip_address := strncpy63 (sscanfKeyValue (cString line)).2.2 }
    else if lineKey line = keyPort then
      { config with port := atoi (sscanfKeyValue (cString line)).2.2 }
    else config
  else config

/-- A stored line that the loop ignores: it starts with `#`, newline or carriage return,
or `sscanf` does not return 2 for it, or its key is none of `ip`, `ip_address`, `port`. -/
def ignoredLine (line : List Nat) : Prop :=
  (line.head? = some 35 ∨ line.head? = some 10 ∨ line.head? = some 13) ∨
    (sscanfKeyValue (cString line)).1 ≠ 2 ∨
    (lineKey line ≠ keyIp ∧ lineKey line ≠ keyIpAddress ∧ lineKey line ≠ keyPort)

/-- `int load_udp_config(UDPConfig *config, const char *filename)`: the return value and
the configuration afterwards. `file` is the content of the file, `none` when `fopen`
returns `NULL`. -/
def load_udp_config (atoi : List Nat → Int) (config : UDPConfig) (file : Option (List Nat)) :
    Int × UDPConfig :=
  match file with
  | none => (0, config)
  | some content => (1, (fgetsLines content []).foldl (processLine atoi) config)

/-! ## Theorems -/

section ModulationTheorems

variable {α : Type} [Field α]

theorem mapBits_eq_table (sqrt2 : α) (bit1 bit2 : Int) (sI sQ : α)
    (h1 : bit1 = 0 ∨ bit1 = 1) (h2 : bit2 = 0 ∨ bit2 = 1) :
    constellationTable sqrt2 bit1 bit2 = some (mapBits sqrt2 bit1 bit2 sI sQ) := by
  rcases h1 with rfl | rfl <;> rcases h2 with rfl | rfl <;>
    simp [mapBits, constellationTable, neg_div]

theorem modulateLoop_spec (sqrt2 : α) :
    ∀ (n : Nat) (data_bits : List Int) (sI sQ : α), data_bits.length = 2 * n →
      (∀ b ∈ data_bits, b = 0 ∨ b = 1) →
      ∃ symbols, modulateLoop sqrt2 data_bits sI sQ = some symbols ∧
        symbols.length = n ∧
        ∀ i, i < n → ∃ b0 b1, data_bits[2 * i]? = some b0 ∧
          data_bits[2 * i + 1]? = some b1 ∧
          constellationTable sqrt2 b0 b1 = symbols[i]? := by
  intro n
  induction n with
  | zero =>
    intro data_bits sI sQ hlen _
    have : data_bits = [] := List.length_eq_zero.mp (by simpa using hlen)
    subst this
    exact ⟨[], rfl, rfl, fun i hi => absurd hi (Nat.not_lt_zero i)⟩
  | succ n ih =>
    intro data_bits sI sQ hlen hbits
    match data_bits, hlen, hbits with
    | [], hlen, _ => simp at hlen
    | [_], hlen, _ => simp at hlen; omega
    | bit1 :: bit2 :: rest, hlen, hbits =>
      have hrest : rest.length = 2 * n := by simp at hlen; omega
      have hb1 : bit1 = 0 ∨ bit1 = 1 := hbits bit1 (by simp)
      have hb2 : bit2 = 0 ∨ bit2 = 1 := hbits bit2 (by simp)
      obtain ⟨symbols, hrun, hsz, htab⟩ :=
        ih rest (mapBits sqrt2 bit1 bit2 sI sQ).1 (mapBits sqrt2 bit1 bit2 sI sQ).2 hrest
          (fun b hb => hbits b (by simp [hb]))
      refine ⟨mapBits sqrt2 bit1 bit2 sI sQ :: symbols, ?_, by simp [hsz], ?_⟩
      · simp [modulateLoop, hrun]
      · intro i hi
        cases i with
        | zero =>
          exact ⟨bit1, bit2, by simp, by simp, by simpa using mapBits_eq_table sqrt2 bit1 bit2 sI sQ hb1 hb2⟩
        | succ i =>
          obtain ⟨b0, b1, h0, h1, ht⟩ := htab i (by omega)
          refine ⟨b0, b1, ?_, ?_, ?_⟩
          · have : 2 * (i + 1) = 2 * i + 1 + 1 := by ring
            rw [this]; simpa using h0
          · have : 2 * (i + 1) + 1 = 2 * i + 1 + 1 + 1 := by ring
            rw [this]; simpa using h1
          · simpa using ht

/-- C1: for every bit sequence of even length `N` whose elements are 0 or 1, the
modulation loop returns exactly `N / 2` symbols, and symbol `i` is the table image
of the pair `(bit[2i], bit[2i+1])`, whatever `symbol_I` and `symbol_Q` held before
the loop. -/
theorem modulateLoop_table (sqrt2 : α) (data_bits : List Int) (symbol_I symbol_Q : α)
    (heven : data_bits.length % 2 = 0) (hbits : ∀ b ∈ data_bits, b = 0 ∨ b = 1) :
    ∃ symbols, modulateLoop sqrt2 data_bits symbol_I symbol_Q = some symbols ∧
      symbols.length = data_bits.length / 2 ∧
      ∀ i, i < data_bits.length / 2 → ∃ b0 b1, data_bits[2 * i]? = some b0 ∧
        data_bits[2 * i + 1]? = some b1 ∧
        constellationTable sqrt2 b0 b1 = symbols[i]? :=
  modulateLoop_spec sqrt2 (data_bits.length / 2) data_bits symbol_I symbol_Q (by omega) hbits

/-- The bits `[0,0,0,1,1,0,1,1]` meet the hypotheses of `modulateLoop_table` and
give the four constellation points in table order. -/
theorem modulateLoop_table_witness :
    ([0, 0, 0, 1, 1, 0, 1, 1] : List Int).length % 2 = 0 ∧
    (∀ b ∈ ([0, 0, 0, 1, 1, 0, 1, 1] : List Int), b = 0 ∨ b = 1) ∧
    (∃ symbols, modulateLoop (Real.sqrt 2) [0, 0, 0, 1, 1, 0, 1, 1] 0 0 = some symbols ∧
      symbols.length = ([0, 0, 0, 1, 1, 0, 1, 1] : List Int).length / 2 ∧
      ∀ i, i < ([0, 0, 0, 1, 1, 0, 1, 1] : List Int).length / 2 →
        ∃ b0 b1, ([0, 0, 0, 1, 1, 0, 1, 1] : List Int)[2 * i]? = some b0 ∧
          ([0, 0, 0, 1, 1, 0, 1, 1] : List Int)[2 * i + 1]? = some b1 ∧
          constellationTable (Real.sqrt 2) b0 b1 = symbols[i]?) ∧
    modulateLoop (Real.sqrt 2) [0, 0, 0, 1, 1, 0, 1, 1] 0 0 =
      some [(1 / Real.sqrt 2, 1 / Real.sqrt 2), (-1 / Real.sqrt 2, 1 / Real.sqrt 2),
        (1 / Real.sqrt 2, -1 / Real.sqrt 2), (-1 / Real.sqrt 2, -1 / Real.sqrt 2)] :=
  ⟨by decide, by decide,
    modulateLoop_table (Real.sqrt 2) [0, 0, 0, 1, 1, 0, 1, 1] 0 0 (by decide) (by decide),
    by simp [modulateLoop, mapBits]⟩

end ModulationTheorems

/-! ### Unit magnitude and Gray coding -/

theorem sqrt2_mul_self : Real.sqrt 2 * Real.sqrt 2 = 2 :=
  Real.mul_self_sqrt (by norm_num)

theorem sqrt2_pos : 0 < Real.sqrt 2 :=
  Real.sqrt_pos.mpr (by norm_num)

theorem mapBits_cases {α : Type} [Field α] (sqrt2 : α) (bit1 bit2 : Int) (sI sQ : α)
    (h1 : bit1 = 0 ∨ bit1 = 1) (h2 : bit2 = 0 ∨ bit2 = 1) :
    mapBits sqrt2 bit1 bit2 sI sQ =
      ((if bit2 = 0 then 1 else -1) / sqrt2, (if bit1 = 0 then 1 else -1) / sqrt2) := by
  rcases h1 with rfl | rfl <;> rcases h2 with rfl | rfl <;> simp [mapBits]

theorem sign_one_div_pos {α : Type} [LinearOrderedField α] (c : α) (hc : 0 < c) :
    SignType.sign (1 / c) = 1 :=
  sign_pos (one_div_pos.mpr hc)

theorem sign_neg_one_div_pos {α : Type} [LinearOrderedField α] (c : α) (hc : 0 < c) :
    SignType.sign (-1 / c) = -1 :=
  sign_neg (by rw [neg_div]; exact neg_lt_zero.mpr (one_div_pos.mpr hc))

/-- C8: each of the four points the mapping assigns has `I*I + Q*Q = 1` in exact real
arithmetic, with `sqrt(2)` the real square root of 2. -/
theorem mapBits_unit_magnitude (bit1 bit2 : Int) (symbol_I symbol_Q : ℝ)
    (h1 : bit1 = 0 ∨ bit1 = 1) (h2 : bit2 = 0 ∨ bit2 = 1) :
    (mapBits (Real.sqrt 2) bit1 bit2 symbol_I symbol_Q).1 *
        (mapBits (Real.sqrt 2) bit1 bit2 symbol_I symbol_Q).1 +
      (mapBits (Real.sqrt 2) bit1 bit2 symbol_I symbol_Q).2 *
        (mapBits (Real.sqrt 2) bit1 bit2 symbol_I symbol_Q).2 = 1 := by
  have hne : Real.sqrt 2 ≠ 0 := ne_of_gt sqrt2_pos
  have hsq := sqrt2_mul_self
  rw [mapBits_cases _ _ _ _ _ h1 h2]
  rcases h1 with rfl | rfl <;> rcases h2 with rfl | rfl <;>
    · simp only [if_true, if_false, one_ne_zero]
      field_simp

/-- The bit pair `(1, 0)` meets the hypotheses of `mapBits_unit_magnitude`. -/
theorem mapBits_unit_magnitude_witness :
    ((1 : Int) = 0 ∨ (1 : Int) = 1) ∧ ((0 : Int) = 0 ∨ (0 : Int) = 1) ∧
    (mapBits (Real.sqrt 2) 1 0 0 0).1 * (mapBits (Real.sqrt 2) 1 0 0 0).1 +
      (mapBits (Real.sqrt 2) 1 0 0 0).2 * (mapBits (Real.sqrt 2) 1 0 0 0).2 = 1 :=
  ⟨by decide, by decide, mapBits_unit_magnitude 1 0 0 0 (by decide) (by decide)⟩

/-- C9: the table is Gray coded. For bit pairs `(a0, a1)` and `(b0, b1)` in
`{0,1} × {0,1}` the constellation points are adjacent (they differ in the sign of
exactly one of `I` and `Q`) iff the pairs differ in exactly one bit, and they are
diagonally opposite iff the pairs are at Hamming distance 2. -/
theorem mapBits_gray_coded (a0 a1 b0 b1 : Int) (symbol_I symbol_Q : ℝ)
    (ha0 : a0 = 0 ∨ a0 = 1) (ha1 : a1 = 0 ∨ a1 = 1)
    (hb0 : b0 = 0 ∨ b0 = 1) (hb1 : b1 = 0 ∨ b1 = 1) :
    (adjacentPoints (mapBits (Real.sqrt 2) a0 a1 symbol_I symbol_Q)
        (mapBits (Real.sqrt 2) b0 b1 symbol_I symbol_Q) ↔
      hammingDistance a0 a1 b0 b1 = 1) ∧
    (oppositePoints (mapBits (Real.sqrt 2) a0 a1 symbol_I symbol_Q)
        (mapBits (Real.sqrt 2) b0 b1 symbol_I symbol_Q) ↔
      hammingDistance a0 a1 b0 b1 = 2) := by
  have hp := sign_one_div_pos (Real.sqrt 2) sqrt2_pos
  have hn := sign_neg_one_div_pos (Real.sqrt 2) sqrt2_pos
  rw [mapBits_cases _ _ _ _ _ ha0 ha1, mapBits_cases _ _ _ _ _ hb0 hb1]
  rcases ha0 with rfl | rfl <;> rcases ha1 with rfl | rfl <;>
    rcases hb0 with rfl | rfl <;> rcases hb1 with rfl | rfl <;>
    simp [adjacentPoints, oppositePoints, differInSign, hammingDistance, hp, hn]

/-- The pairs `(0, 0)` and `(0, 1)` meet the hypotheses of `mapBits_gray_coded`. -/
theorem mapBits_gray_coded_witness :
    ((0 : Int) = 0 ∨ (0 : Int) = 1) ∧ ((1 : Int) = 0 ∨ (1 : Int) = 1) ∧
    ((adjacentPoints (mapBits (Real.sqrt 2) 0 0 0 0) (mapBits (Real.sqrt 2) 0 1 0 0) ↔
      hammingDistance 0 0 0 1 = 1) ∧
    (oppositePoints (mapBits (Real.sqrt 2) 0 0 0 0) (mapBits (Real.sqrt 2) 0 1 0 0) ↔
      hammingDistance 0 0 0 1 = 2)) :=
  ⟨by decide, by decide,
    mapBits_gray_coded 0 0 0 1 0 0 (by decide) (by decide) (by decide) (by decide)⟩

/-! ### The padded frame -/

/-- A fill loop whose pass `i` is the assignment `comb[i] = f i` on `[lo, lo + n)` and
which stays inside the array assigns exactly the indices `lo, ..., lo + n - 1`, once
each and in order, and changes nothing else. -/
theorem fillLoop_spec (body : Nat → CombState → Option CombState) (f : Nat → Float32) :
    ∀ (n lo : Nat) (st : CombState), lo + n ≤ st.comb.length →
      (∀ i st, lo ≤ i → i < lo + n → body i st = st.assign i (f i)) →
      ∃ st', forLoopFrom body n lo st = some st' ∧
        st'.comb.length = st.comb.length ∧
        (∀ k, st'.comb[k]? =
          if lo ≤ k ∧ k < lo + n then some (f k) else st.comb[k]?) ∧
        st'.assigned = st.assigned ++ List.range' lo n := by
  intro n
  induction n with
  | zero =>
    intro lo st _ _
    refine ⟨st, rfl, rfl, fun k => ?_, by simp⟩
    have : ¬ (lo ≤ k ∧ k < lo + 0) := by omega
    rw [if_neg this]
  | succ n ih =>
    intro lo st hlen hbody
    have hlo : lo < st.comb.length := by omega
    obtain ⟨st', hrun, hlen', hget, hlog⟩ :=
      ih (lo + 1) ⟨st.comb.set lo (f lo), st.assigned ++ [lo]⟩
        (by simp only [List.length_set]; omega)
        (fun i st h1 h2 => hbody i st (by omega) (by omega))
    refine ⟨st', ?_, ?_, fun k => ?_, ?_⟩
    · simp only [forLoopFrom, hbody lo st (Nat.le_refl lo) (by omega),
        CombState.assign, hlo, if_true, Option.some_bind]
      exact hrun
    · simpa using hlen'
    · rw [hget k]
      by_cases hk : lo + 1 ≤ k ∧ k < lo + 1 + n
      · have : lo ≤ k ∧ k < lo + (n + 1) := by omega
        rw [if_pos hk, if_pos this]
      · by_cases hk0 : k = lo
        · subst hk0
          have : k ≤ k ∧ k < k + (n + 1) := by omega
          rw [if_neg hk, if_pos this]
          simp [hlo]
        · have : ¬ (lo ≤ k ∧ k < lo + (n + 1)) := by omega
          rw [if_neg hk, if_neg this]
          exact List.getElem?_set_ne (fun h => hk0 h.symm)
    · rw [hlog, List.append_assoc]
      rfl

/-- The statement of `fillLoop_spec` for the loop `for (i = lo; i < hi; i++)`. -/
theorem forLoop_fill (body : Nat → CombState → Option CombState) (f : Nat → Float32)
    (lo hi : Nat) (st : CombState) (hle : lo ≤ hi) (hlen : hi ≤ st.comb.length)
    (hbody : ∀ i st, lo ≤ i → i < hi → body i st = st.assign i (f i)) :
    ∃ st', forLoop lo hi body st = some st' ∧
      st'.comb.length = st.comb.length ∧
      (∀ k, st'.comb[k]? = if lo ≤ k ∧ k < hi then some (f k) else st.comb[k]?) ∧
      st'.assigned = st.assigned ++ List.range' lo (hi - lo) := by
  have e : lo + (hi - lo) = hi := by omega
  obtain ⟨st', h1, h2, h3, h4⟩ := fillLoop_spec body f (hi - lo) lo st (by omega)
    (fun i st a b => hbody i st a (by omega))
  refine ⟨st', h1, h2, fun k => ?_, h4⟩
  rw [h3 k, e]

theorem count_range'_eq_one (k lo n : Nat) (h1 : lo ≤ k) (h2 : k < lo + n) :
    (List.range' lo n).count k = 1 :=
  List.count_eq_one_of_mem (List.nodup_range' lo n) (List.mem_range'_1.mpr ⟨h1, h2⟩)

/-- The index ranges of the five fill loops, one after the other, are `0, ..., 767`. -/
theorem fill_ranges_cover :
    ([] : List Nat) ++ List.range' 0 256 ++ List.range' 256 20 ++ List.range' 276 236 ++
        List.range' 512 20 ++ List.range' 532 236 = List.range' 0 768 := by
  have e1 : List.range' 0 256 ++ List.range' 256 20 = List.range' 0 276 :=
    List.range'_append_1 0 256 20
  have e2 : List.range' 0 276 ++ List.range' 276 236 = List.range' 0 512 :=
    List.range'_append_1 0 276 236
  have e3 : List.range' 0 512 ++ List.range' 512 20 = List.range' 0 532 :=
    List.range'_append_1 0 512 20
  have e4 : List.range' 0 532 ++ List.range' 532 236 = List.range' 0 768 :=
    List.range'_append_1 0 532 236
  rw [List.nil_append, e1, e2, e3, e4]

/-- C2: for every 20 symbols (given as the arrays of their real and imaginary parts)
and whatever `comb` held before, the five fill loops run to the end and leave a frame
of length 768 with zeros on `[0,256)`, the real parts on `[256,276)`, zeros on
`[276,512)`, the imaginary parts on `[512,532)` and zeros on `[532,768)`, each value
of a symbol stored as the `float` it converts to; every index below 768 is assigned
exactly once. -/
theorem buildComb_layout {α : Type} (narrow : α → Float32)
    (qpsk_symbol_real qpsk_symbol_imag : List α) (comb : List Float32)
    (hreal : qpsk_symbol_real.length = SYMBOLS_COUNT)
    (himag : qpsk_symbol_imag.length = SYMBOLS_COUNT)
    (hcomb : comb.length = COMBINATION_LENGTH) :
    ∃ st, buildComb narrow qpsk_symbol_real qpsk_symbol_imag comb = some st ∧
      st.comb.length = 768 ∧
      (∀ k, k < 256 → st.comb[k]? = some Float32.zero) ∧
      (∀ k, k < 20 → ∃ re, qpsk_symbol_real[k]? = some re ∧
        st.comb[256 + k]? = some (narrow re)) ∧
      (∀ k, 276 ≤ k → k < 512 → st.comb[k]? = some Float32.zero) ∧
      (∀ k, k < 20 → ∃ im, qpsk_symbol_imag[k]? = some im ∧
        st.comb[512 + k]? = some (narrow im)) ∧
      (∀ k, 532 ≤ k → k < 768 → st.comb[k]? = some Float32.zero) ∧
      (∀ k, k < 768 → st.assigned.count k = 1) := by
  have hreal' : qpsk_symbol_real.length = 20 := hreal
  have himag' : qpsk_symbol_imag.length = 20 := himag
  have hcomb' : comb.length = 768 := hcomb
  have hC : COMBINATION_LENGTH = 768 := rfl
  -- the values the two copying loops store
  obtain ⟨fre, hfre⟩ : ∃ fre : Nat → Float32, ∀ i (x : α),
      qpsk_symbol_real[i - 256]? = some x → fre i = narrow x :=
    ⟨fun i => ((qpsk_symbol_real[i - 256]?).map narrow).getD Float32.zero,
      fun i x h => by simp [h]⟩
  obtain ⟨fim, hfim⟩ : ∃ fim : Nat → Float32, ∀ i (x : α),
      qpsk_symbol_imag[i - 256 * 2]? = some x → fim i = narrow x :=
    ⟨fun i => ((qpsk_symbol_imag[i - 256 * 2]?).map narrow).getD Float32.zero,
      fun i x h => by simp [h]⟩
  have hre : ∀ i (st : CombState), 256 ≤ i → i < 276 →
      ((qpsk_symbol_real[i - 256]?).bind fun x => st.assign i (narrow x)) =
        st.assign i (fre i) := by
    intro i st h1 h2
    have hi : i - 256 < qpsk_symbol_real.length := by omega
    rw [List.getElem?_eq_getElem hi, Option.some_bind,
      hfre i _ (List.getElem?_eq_getElem hi)]
  have him : ∀ i (st : CombState), 256 * 2 ≤ i → i < 256 * 2 + 20 →
      ((qpsk_symbol_imag[i - 256 * 2]?).bind fun x => st.assign i (narrow x)) =
        st.assign i (fim i) := by
    intro i st h1 h2
    have hi : i - 256 * 2 < qpsk_symbol_imag.length := by omega
    rw [List.getElem?_eq_getElem hi, Option.some_bind,
      hfim i _ (List.getElem?_eq_getElem hi)]
  obtain ⟨s1, r1, l1, g1, a1⟩ :=
    forLoop_fill (fun i st => st.assign i Float32.zero) (fun _ => Float32.zero)
      0 256 ⟨comb, []⟩ (by omega) (by show 256 ≤ comb.length; omega) (fun _ _ _ _ => rfl)
  have l1' : s1.comb.length = 768 := by rw [l1]; exact hcomb'
  obtain ⟨s2, r2, l2, g2, a2⟩ :=
    forLoop_fill
      (fun i st => (qpsk_symbol_real[i - 256]?).bind fun x => st.assign i (narrow x))
      fre 256 276 s1 (by omega) (by omega) hre
  have l2' : s2.comb.length = 768 := by rw [l2]; exact l1'
  obtain ⟨s3, r3, l3, g3, a3⟩ :=
    forLoop_fill (fun i st => st.assign i Float32.zero) (fun _ => Float32.zero)
      276 (256 * 2) s2 (by omega) (by omega) (fun _ _ _ _ => rfl)
  have l3' : s3.comb.length = 768 := by rw [l3]; exact l2'
  obtain ⟨s4, r4, l4, g4, a4⟩ :=
    forLoop_fill
      (fun i st => (qpsk_symbol_imag[i - 256 * 2]?).bind fun x => st.assign i (narrow x))
      fim (256 * 2) (256 * 2 + 20) s3 (by omega) (by omega) him
  have l4' : s4.comb.length = 768 := by rw [l4]; exact l3'
  obtain ⟨s5, r5, l5, g5, a5⟩ :=
    forLoop_fill (fun i st => st.assign i Float32.zero) (fun _ => Float32.zero)
      (256 * 2 + 20) COMBINATION_LENGTH s4 (by rw [hC]; omega) (by rw [hC]; omega)
      (fun _ _ _ _ => rfl)
  have l5' : s5.comb.length = 768 := by rw [l5]; exact l4'
  have hrun : buildComb narrow qpsk_symbol_real qpsk_symbol_imag comb = some s5 := by
    rw [buildComb, r1, Option.some_bind, r2, Option.some_bind, r3, Option.some_bind, r4,
      Option.some_bind, r5]
  have hval : ∀ k, s5.comb[k]? =
      if 532 ≤ k ∧ k < 768 then some Float32.zero
      else if 512 ≤ k ∧ k < 532 then some (fim k)
      else if 276 ≤ k ∧ k < 512 then some Float32.zero
      else if 256 ≤ k ∧ k < 276 then some (fre k)
      else if 0 ≤ k ∧ k < 256 then some Float32.zero
      else comb[k]? := by
    intro k
    rw [g5 k, g4 k, g3 k, g2 k, g1 k]
    rfl
  have hlog : s5.assigned = List.range' 0 768 := by
    rw [a5, a4, a3, a2, a1]
    exact fill_ranges_cover
  refine ⟨s5, hrun, l5', ?_, ?_, ?_, ?_, ?_, ?_⟩
  · intro k hk
    have c1 : ¬ (532 ≤ k ∧ k < 768) := by omega
    have c2 : ¬ (512 ≤ k ∧ k < 532) := by omega
    have c3 : ¬ (276 ≤ k ∧ k < 512) := by omega
    have c4 : ¬ (256 ≤ k ∧ k < 276) := by omega
    have c5 : 0 ≤ k ∧ k < 256 := by omega
    rw [hval k, if_neg c1, if_neg c2, if_neg c3, if_neg c4, if_pos c5]
  · intro k hk
    have hi : k < qpsk_symbol_real.length := by omega
    have c1 : ¬ (532 ≤ 256 + k ∧ 256 + k < 768) := by omega
    have c2 : ¬ (512 ≤ 256 + k ∧ 256 + k < 532) := by omega
    have c3 : ¬ (276 ≤ 256 + k ∧ 256 + k < 512) := by omega
    have c4 : 256 ≤ 256 + k ∧ 256 + k < 276 := by omega
    have hx : qpsk_symbol_real[256 + k - 256]? = some qpsk_symbol_real[k] := by
      rw [Nat.add_sub_cancel_left]
      exact List.getElem?_eq_getElem hi
    refine ⟨qpsk_symbol_real[k], List.getElem?_eq_getElem hi, ?_⟩
    rw [hval (256 + k), if_neg c1, if_neg c2, if_neg c3, if_pos c4, hfre _ _ hx]
  · intro k h1 h2
    have c1 : ¬ (532 ≤ k ∧ k < 768) := by omega
    have c2 : ¬ (512 ≤ k ∧ k < 532) := by omega
    have c3 : 276 ≤ k ∧ k < 512 := by omega
    rw [hval k, if_neg c1, if_neg c2, if_pos c3]
  · intro k hk
    have hi : k < qpsk_symbol_imag.length := by omega
    have c1 : ¬ (532 ≤ 512 + k ∧ 512 + k < 768) := by omega
    have c2 : 512 ≤ 512 + k ∧ 512 + k < 532 := by omega
    have hx : qpsk_symbol_imag[512 + k - 256 * 2]? = some qpsk_symbol_imag[k] := by
      have e : 512 + k - 256 * 2 = k := by omega
      rw [e]
      exact List.getElem?_eq_getElem hi
    refine ⟨qpsk_symbol_imag[k], List.getElem?_eq_getElem hi, ?_⟩
    rw [hval (512 + k), if_neg c1, if_pos c2, hfim _ _ hx]
  · intro k h1 h2
    have c1 : 532 ≤ k ∧ k < 768 := by omega
    rw [hval k, if_pos c1]
  · intro k hk
    rw [hlog]
    exact count_range'_eq_one k 0 768 (Nat.zero_le k) (by omega)

/-- Twenty symbols given by their indices, over a `comb` that held the pattern 7
everywhere, meet the hypotheses of `buildComb_layout`. -/
theorem buildComb_layout_witness :
    (List.range 20).length = SYMBOLS_COUNT ∧
    ((List.range 20).map (· + 100)).length = SYMBOLS_COUNT ∧
    (List.replicate 768 (⟨7, by decide⟩ : Float32)).length = COMBINATION_LENGTH ∧
    ∃ st, buildComb (fun n : Nat => (⟨n % 2 ^ 32, Nat.mod_lt n (by decide)⟩ : Float32))
        (List.range 20) ((List.range 20).map (· + 100))
        (List.replicate 768 (⟨7, by decide⟩ : Float32)) = some st ∧
      st.comb.length = 768 ∧
      (∀ k, k < 256 → st.comb[k]? = some Float32.zero) ∧
      (∀ k, k < 20 → ∃ re, (List.range 20)[k]? = some re ∧
        st.comb[256 + k]? =
          some ((fun n : Nat => (⟨n % 2 ^ 32, Nat.mod_lt n (by decide)⟩ : Float32)) re)) ∧
      (∀ k, 276 ≤ k → k < 512 → st.comb[k]? = some Float32.zero) ∧
      (∀ k, k < 20 → ∃ im, ((List.range 20).map (· + 100))[k]? = some im ∧
        st.comb[512 + k]? =
          some ((fun n : Nat => (⟨n % 2 ^ 32, Nat.mod_lt n (by decide)⟩ : Float32)) im)) ∧
      (∀ k, 532 ≤ k → k < 768 → st.comb[k]? = some Float32.zero) ∧
      (∀ k, k < 768 → st.assigned.count k = 1) :=
  ⟨by simp [SYMBOLS_COUNT], by simp [SYMBOLS_COUNT], List.length_replicate _ _,
    buildComb_layout _ (List.range 20) ((List.range 20).map (· + 100))
      (List.replicate 768 (⟨7, by decide⟩ : Float32)) (by simp [SYMBOLS_COUNT])
      (by simp [SYMBOLS_COUNT]) (List.length_replicate _ _)⟩

/-! ### Serialisation -/

theorem objectRepr_length (host : ByteOrder) (value : Float32) :
    (objectRepr host value).length = 4 := by
  cases host <;> rfl

/-- Writing `a` at `off` and then `b` right behind it is writing `a ++ b` at `off`. -/
theorem splice_splice (l a b : List Nat) (off : Nat) :
    (l.take off ++ a ++ l.drop (off + a.length)).take (off + a.length) ++ b ++
        (l.take off ++ a ++ l.drop (off + a.length)).drop (off + a.length + b.length) =
      l.take off ++ (a ++ b) ++ l.drop (off + (a ++ b).length) := by
  by_cases h : off ≤ l.length
  · have hlen : (l.take off ++ a).length = off + a.length := by
      simp [List.length_take, Nat.min_eq_left h]
    rw [List.take_left' hlen]
    have hd : (l.take off ++ a ++ l.drop (off + a.length)).drop (off + a.length + b.length) =
        l.drop (off + (a ++ b).length) := by
      rw [← hlen, List.drop_append, List.drop_drop, hlen, List.length_append]
      congr 1
      omega
    rw [hd]
    simp [List.append_assoc]
  · have h' : l.length ≤ off := by omega
    have e1 : l.drop (off + a.length) = [] := List.drop_eq_nil_of_le (by omega)
    have e2 : l.drop (off + (a ++ b).length) = [] := List.drop_eq_nil_of_le (by omega)
    have e3 : l.take off = l := List.take_of_length_le h'
    rw [e1, e2, e3, List.append_nil, List.append_nil]
    have hle : (l ++ a).length ≤ off + a.length := by simp; omega
    rw [List.take_of_length_le hle, List.drop_eq_nil_of_le (by omega)]
    simp [List.append_assoc]

/-- One call of `floatToBytes` inside the buffer. -/
theorem floatToBytes_eq (host : ByteOrder) (value : Float32) (buffer : List Nat) (off : Nat)
    (h : off + 4 ≤ buffer.length) :
    floatToBytes host value buffer off =
      some (buffer.take off ++ objectRepr host value ++ buffer.drop (off + 4)) := by
  have hl := objectRepr_length host value
  have ht : (objectRepr host value).take 4 = objectRepr host value :=
    List.take_of_length_le (by rw [hl])
  unfold floatToBytes memcpy sizeofFloat
  rw [if_pos ⟨h, by rw [hl]⟩, ht]

theorem splice_splice_len (l a b : List Nat) (off na nb : Nat)
    (ha : a.length = na) (hb : b.length = nb) :
    (l.take off ++ a ++ l.drop (off + na)).take (off + na) ++ b ++
        (l.take off ++ a ++ l.drop (off + na)).drop (off + na + nb) =
      l.take off ++ (a ++ b) ++ l.drop (off + (na + nb)) := by
  subst ha hb
  rw [splice_splice, List.length_append]

theorem splice_length (l a : List Nat) (off : Nat) (h : off + a.length ≤ l.length) :
    (l.take off ++ a ++ l.drop (off + a.length)).length = l.length := by
  simp only [List.length_append, List.length_take, List.length_drop]
  omega

theorem symbolBytes_length {α : Type} (host : ByteOrder) (narrow : α → Float32)
    (symbol : α × α) : (symbolBytes host narrow symbol).length = 8 := by
  simp [symbolBytes, objectRepr_length]

theorem bind_symbolBytes_length {α : Type} (host : ByteOrder) (narrow : α → Float32)
    (syms : List (α × α)) : (syms.flatMap (symbolBytes host narrow)).length = 8 * syms.length := by
  induction syms with
  | nil => rfl
  | cons sym tl ih =>
    rw [List.flatMap_cons, List.length_append, ih, symbolBytes_length, List.length_cons]
    omega

/-- One pass of the conversion loop inside the buffer writes the eight bytes of
`symbols[i]` at `j` and advances `j` by eight. -/
theorem symbolsToBytesPass_eq {α : Type} (host : ByteOrder) (narrow : α → Float32)
    (symbols : List (α × α)) (i j : Nat) (buf : List Nat) (sym : α × α)
    (hsym : symbols[i]? = some sym) (hbuf : j + 8 ≤ buf.length) :
    symbolsToBytesPass host narrow symbols i (j, buf) =
      some (j + 8, buf.take j ++ symbolBytes host narrow sym ++ buf.drop (j + 8)) := by
  have h1 := floatToBytes_eq host (narrow sym.1) buf j (by omega)
  have hl1 : (buf.take j ++ objectRepr host (narrow sym.1) ++ buf.drop (j + 4)).length =
      buf.length := by
    have := splice_length buf (objectRepr host (narrow sym.1)) j
      (by rw [objectRepr_length]; omega)
    rwa [objectRepr_length] at this
  have h2 := floatToBytes_eq host (narrow sym.2)
    (buf.take j ++ objectRepr host (narrow sym.1) ++ buf.drop (j + 4)) (j + 4)
    (by rw [hl1]; omega)
  rw [splice_splice_len buf _ _ j 4 4 (objectRepr_length _ _) (objectRepr_length _ _)] at h2
  simp only [symbolsToBytesPass, hsym, Option.some_bind, h1, sizeofFloat, h2, Option.map_some']
  rfl

/-- The conversion loop over the symbols `syms = symbols[lo], symbols[lo+1], ...`
overwrites the `8 * syms.length` bytes from `j` on with their encodings, in order. -/
theorem symbolsToBytes_loop {α : Type} (host : ByteOrder) (narrow : α → Float32)
    (symbols : List (α × α)) :
    ∀ (syms : List (α × α)) (lo j : Nat) (buf : List Nat),
      (∀ k, k < syms.length → symbols[lo + k]? = syms[k]?) →
      j + 8 * syms.length ≤ buf.length →
      forLoopFrom (symbolsToBytesPass host narrow symbols) syms.length lo (j, buf) =
        some (j + 8 * syms.length,
          buf.take j ++ syms.flatMap (symbolBytes host narrow) ++
            buf.drop (j + 8 * syms.length)) := by
  intro syms
  induction syms with
  | nil =>
    intro lo j buf _ _
    simp [forLoopFrom]
  | cons sym tl ih =>
    intro lo j buf hsyms hbuf
    simp only [List.length_cons] at hbuf
    have h0 : symbols[lo]? = some sym := by simpa using hsyms 0 (by simp)
    have hpass := symbolsToBytesPass_eq host narrow symbols lo j buf sym h0 (by omega)
    have hl : (buf.take j ++ symbolBytes host narrow sym ++ buf.drop (j + 8)).length =
        buf.length := by
      have := splice_length buf (symbolBytes host narrow sym) j
        (by rw [symbolBytes_length]; omega)
      rwa [symbolBytes_length] at this
    have hrec := ih (lo + 1) (j + 8)
      (buf.take j ++ symbolBytes host narrow sym ++ buf.drop (j + 8))
      (fun k hk => by
        have := hsyms (k + 1) (by simp; omega)
        simpa [Nat.add_assoc, Nat.add_comm 1 k] using this)
      (by rw [hl]; omega)
    rw [splice_splice_len buf _ _ j 8 (8 * tl.length) (symbolBytes_length _ _ _)
      (bind_symbolBytes_length _ _ _)] at hrec
    simp only [List.length_cons, forLoopFrom, hpass, Option.some_bind, List.flatMap_cons]
    rw [hrec]
    have e : j + 8 + 8 * tl.length = j + 8 * (tl.length + 1) := by omega
    have e' : j + (8 + 8 * tl.length) = j + 8 * (tl.length + 1) := by omega
    rw [e, e']

theorem bind_symbolBytes_drop {α : Type} (host : ByteOrder) (narrow : α → Float32) :
    ∀ (syms : List (α × α)) (i : Nat) (sym : α × α), syms[i]? = some sym →
      (syms.flatMap (symbolBytes host narrow)).drop (8 * i) =
        symbolBytes host narrow sym ++ (syms.drop (i + 1)).flatMap (symbolBytes host narrow) := by
  intro syms
  induction syms with
  | nil => intro i sym h; simp at h
  | cons s tl ih =>
    intro i sym h
    cases i with
    | zero =>
      have : s = sym := by simpa using h
      subst this
      simp [List.flatMap_cons]
    | succ i =>
      have h' : tl[i]? = some sym := by simpa using h
      have e : 8 * (i + 1) = (symbolBytes host narrow s).length + 8 * i := by
        rw [symbolBytes_length]; omega
      rw [List.flatMap_cons, e, List.drop_append, ih i sym h']
      simp

/-- C3: in the compact binary mode, for every 20 symbols and whatever `byteBuffer` held
before, the payload handed to `sendto` has exactly 160 bytes, it is the encodings of
`real, imag, real, imag, ...` in symbol order with nothing in between (so every byte of
the buffer was written), and bytes `[8i, 8i+4)` are the encoding of the real part of
symbol `i`, bytes `[8i+4, 8i+8)` that of its imaginary part. -/
theorem floatPayload_layout {α : Type} (host : ByteOrder) (narrow : α → Float32)
    (symbols : List (α × α)) (byteBuffer : List Nat)
    (hsym : symbols.length = SYMBOLS_COUNT)
    (hbuf : byteBuffer.length = SYMBOLS_COUNT * sizeofFloat * 2) :
    ∃ payload, floatPayload host narrow symbols byteBuffer = some payload ∧
      payload.length = 160 ∧
      payload = symbols.flatMap (symbolBytes host narrow) ∧
      ∀ i, i < 20 → ∃ sym, symbols[i]? = some sym ∧
        (payload.drop (8 * i)).take 4 = objectRepr host (narrow sym.1) ∧
        (payload.drop (8 * i + 4)).take 4 = objectRepr host (narrow sym.2) := by
  simp only [SYMBOLS_COUNT] at hsym
  simp only [SYMBOLS_COUNT, sizeofFloat] at hbuf
  have hloop := symbolsToBytes_loop host narrow symbols symbols 0 0 byteBuffer
    (fun k _ => by rw [Nat.zero_add]) (by rw [hsym, hbuf])
  have hlen := bind_symbolBytes_length host narrow symbols
  rw [hsym] at hlen
  have hdrop : byteBuffer.drop (0 + 8 * symbols.length) = [] :=
    List.drop_eq_nil_of_le (by rw [hsym, hbuf])
  rw [hdrop, List.take_zero, List.nil_append, List.append_nil, hsym] at hloop
  refine ⟨symbols.flatMap (symbolBytes host narrow), ?_, hlen, rfl, ?_⟩
  · show (forLoopFrom _ 20 0 _).bind _ = _
    rw [hloop]
    show sendtoPayload _ 160 = _
    rw [sendtoPayload, if_pos (by rw [hlen]), List.take_of_length_le (by rw [hlen])]
  · intro i hi
    have hi' : i < symbols.length := by omega
    refine ⟨symbols[i], List.getElem?_eq_getElem hi', ?_, ?_⟩
    · rw [bind_symbolBytes_drop host narrow symbols i _ (List.getElem?_eq_getElem hi'),
        symbolBytes, List.append_assoc]
      exact List.take_left' (objectRepr_length _ _)
    · rw [← List.drop_drop,
        bind_symbolBytes_drop host narrow symbols i _ (List.getElem?_eq_getElem hi'),
        symbolBytes, List.append_assoc, List.drop_left' (objectRepr_length _ _)]
      exact List.take_left' (objectRepr_length _ _)

/-- Twenty copies of the symbol `(1, 2)` over a zeroed buffer of 160 bytes meet the
hypotheses of `floatPayload_layout`. -/
theorem floatPayload_layout_witness :
    (List.replicate 20 ((1 : Nat), (2 : Nat))).length = SYMBOLS_COUNT ∧
    (List.replicate 160 (0 : Nat)).length = SYMBOLS_COUNT * sizeofFloat * 2 ∧
    ∃ payload, floatPayload ByteOrder.littleEndian
        (fun n : Nat => (⟨n % 2 ^ 32, Nat.mod_lt n (by decide)⟩ : Float32))
        (List.replicate 20 ((1 : Nat), (2 : Nat))) (List.replicate 160 (0 : Nat)) =
          some payload ∧
      payload.length = 160 ∧
      payload = (List.replicate 20 ((1 : Nat), (2 : Nat))).flatMap
        (symbolBytes ByteOrder.littleEndian
          (fun n : Nat => (⟨n % 2 ^ 32, Nat.mod_lt n (by decide)⟩ : Float32))) ∧
      ∀ i, i < 20 → ∃ sym, (List.replicate 20 ((1 : Nat), (2 : Nat)))[i]? = some sym ∧
        (payload.drop (8 * i)).take 4 = objectRepr ByteOrder.littleEndian
          ((fun n : Nat => (⟨n % 2 ^ 32, Nat.mod_lt n (by decide)⟩ : Float32)) sym.1) ∧
        (payload.drop (8 * i + 4)).take 4 = objectRepr ByteOrder.littleEndian
          ((fun n : Nat => (⟨n % 2 ^ 32, Nat.mod_lt n (by decide)⟩ : Float32)) sym.2) :=
  ⟨List.length_replicate _ _, List.length_replicate _ _,
    floatPayload_layout ByteOrder.littleEndian _ (List.replicate 20 ((1 : Nat), (2 : Nat)))
      (List.replicate 160 (0 : Nat)) (List.length_replicate _ _) (List.length_replicate _ _)⟩

theorem arrayRepr_length (host : ByteOrder) (comb : List Float32) :
    (arrayRepr host comb).length = 4 * comb.length := by
  induction comb with
  | nil => rfl
  | cons v tl ih =>
    rw [arrayRepr, List.flatMap_cons, List.length_append, objectRepr_length] at *
    rw [ih, List.length_cons]
    omega

/-- The byte that the host stores at position `k` of a `float` with the given bit
pattern, read off `objectRepr`. -/
theorem objectRepr_getElem? (host : ByteOrder) (value : Float32) (k : Nat) (hk : k < 4) :
    (objectRepr host value)[k]? =
      some (match host with
        | .littleEndian => value.bits / 2 ^ (8 * k) % 256
        | .bigEndian => value.bits / 2 ^ (8 * (3 - k)) % 256) := by
  interval_cases k <;> cases host <;> simp [objectRepr]

/-- The claim C4 as stated fails: on a big-endian host `floatToBytes` stores `1.0f`
(pattern `0x3F800000`) as `3F 80 00 00`, so byte 0 is `0x3F` and not bits 0..7 of the
pattern, which are `0x00`. -/
theorem floatToBytes_not_host_independent :
    ¬ ∀ (host : ByteOrder) (value : Float32) (buffer : List Nat) (off k : Nat),
      off + 4 ≤ buffer.length → k < 4 →
      ∃ out, floatToBytes host value buffer off = some out ∧
        out[off + k]? = some (value.bits / 2 ^ (8 * k) % 256) := by
  intro h
  obtain ⟨out, hout, hbyte⟩ :=
    h ByteOrder.bigEndian ⟨0x3F800000, by decide⟩ [0, 0, 0, 0] 0 0 (by decide) (by decide)
  have hrun : floatToBytes ByteOrder.bigEndian ⟨0x3F800000, by decide⟩ [0, 0, 0, 0] 0 =
      some [63, 128, 0, 0] := by decide
  rw [hrun] at hout
  cases hout
  revert hbyte
  decide

/-- C4 as amended: inside the buffer `floatToBytes` writes exactly the 4 bytes at
`off .. off+3` and nothing else, and they are the object representation of the value on
the host: byte `k` holds bits `8k..8k+7` of the binary32 pattern on a little-endian
host and bits `8(3-k)..8(3-k)+7` on a big-endian host. The padded frame of 768 values
is sent as 3072 bytes. -/
theorem floatToBytes_host_order (host : ByteOrder) (value : Float32) (buffer : List Nat)
    (off : Nat) (comb : List Float32) (hbuf : off + 4 ≤ buffer.length)
    (hcomb : comb.length = COMBINATION_LENGTH) :
    (∃ out, floatToBytes host value buffer off = some out ∧
      out.length = buffer.length ∧
      (∀ k, k < 4 → out[off + k]? =
        some (match host with
          | .littleEndian => value.bits / 2 ^ (8 * k) % 256
          | .bigEndian => value.bits / 2 ^ (8 * (3 - k)) % 256)) ∧
      (∀ k, k < off ∨ off + 4 ≤ k → out[k]? = buffer[k]?)) ∧
    (∃ payload, finalPayload host comb = some payload ∧ payload.length = 3072 ∧
      payload = arrayRepr host comb) := by
  have hl := objectRepr_length host value
  have htake : (buffer.take off).length = off := by
    rw [List.length_take]; omega
  refine ⟨⟨_, floatToBytes_eq host value buffer off hbuf, ?_, ?_, ?_⟩, ?_⟩
  · have := splice_length buffer (objectRepr host value) off (by rw [hl]; exact hbuf)
    rwa [hl] at this
  · intro k hk
    rw [List.append_assoc, List.getElem?_append_right (by rw [htake]; omega), htake,
      Nat.add_sub_cancel_left, List.getElem?_append_left (by rw [hl]; exact hk)]
    exact objectRepr_getElem? host value k hk
  · intro k hk
    rcases hk with hk | hk
    · rw [List.append_assoc, List.getElem?_append_left (by rw [htake]; exact hk),
        List.getElem?_take_of_lt hk]
    · rw [List.getElem?_append_right (by rw [List.length_append, htake, hl]; exact hk),
        List.length_append, htake, hl, List.getElem?_drop]
      congr 1
      omega
  · have hlen := arrayRepr_length host comb
    rw [hcomb] at hlen
    simp only [COMBINATION_LENGTH] at hlen
    refine ⟨arrayRepr host comb, ?_, hlen, rfl⟩
    rw [finalPayload, sendtoPayload, if_pos (by rw [hlen]; decide),
      List.take_of_length_le (by rw [hlen]; decide)]

/-- The value `1.0f` written at offset 4 of an 8-byte buffer on a big-endian host, and a
frame of 768 zeros, meet the hypotheses of `floatToBytes_host_order`. -/
theorem floatToBytes_host_order_witness :
    4 + 4 ≤ (List.replicate 8 (0 : Nat)).length ∧
    (List.replicate 768 Float32.zero).length = COMBINATION_LENGTH ∧
    (∃ out, floatToBytes ByteOrder.bigEndian ⟨0x3F800000, by decide⟩
        (List.replicate 8 0) 4 = some out ∧
      out.length = (List.replicate 8 (0 : Nat)).length ∧
      (∀ k, k < 4 → out[4 + k]? = some (0x3F800000 / 2 ^ (8 * (3 - k)) % 256)) ∧
      (∀ k, k < 4 ∨ 4 + 4 ≤ k → out[k]? = (List.replicate 8 (0 : Nat))[k]?)) ∧
    (∃ payload, finalPayload ByteOrder.bigEndian (List.replicate 768 Float32.zero) =
        some payload ∧ payload.length = 3072 ∧
      payload = arrayRepr ByteOrder.bigEndian (List.replicate 768 Float32.zero)) ∧
    floatToBytes ByteOrder.bigEndian ⟨0x3F800000, by decide⟩ (List.replicate 8 0) 4 =
      some [0, 0, 0, 0, 63, 128, 0, 0] ∧
    floatToBytes ByteOrder.littleEndian ⟨0x3F800000, by decide⟩ (List.replicate 8 0) 4 =
      some [0, 0, 0, 0, 0, 0, 128, 63] :=
  have h := floatToBytes_host_order ByteOrder.bigEndian ⟨0x3F800000, by decide⟩
    (List.replicate 8 0) 4 (List.replicate 768 Float32.zero) (by decide)
    (List.length_replicate _ _)
  ⟨by decide, List.length_replicate _ _, h.1, h.2, by decide, by decide⟩

/-- A pattern below `2 ^ 32` is the sum of its four bytes at their weights. -/
theorem bits_of_bytes (b : Nat) (h : b < 2 ^ 32) :
    b % 256 + 256 * (b / 2 ^ 8 % 256) + 65536 * (b / 2 ^ 16 % 256) +
      16777216 * (b / 2 ^ 24 % 256) = b := by
  norm_num at h ⊢
  omega

/-- The bytes written by `floatToBytes`, read back from the buffer. -/
theorem floatToBytes_written (host : ByteOrder) (value : Float32) (buffer : List Nat)
    (off : Nat) (hbuf : off + 4 ≤ buffer.length) :
    ∃ out, floatToBytes host value buffer off = some out ∧
      (out.drop off).take 4 = objectRepr host value := by
  have htake : (buffer.take off).length = off := by
    rw [List.length_take]; omega
  refine ⟨_, floatToBytes_eq host value buffer off hbuf, ?_⟩
  rw [List.append_assoc, List.drop_left' htake]
  exact List.take_left' (objectRepr_length host value)

/-- The claim C5 as stated fails: no decoding undoes `floatToBytes` whatever host wrote
the bytes. The bytes `01 00 00 00` are written for the pattern `0x00000001` by a
little-endian host and for the pattern `0x01000000` by a big-endian host. -/
theorem floatToBytes_no_common_inverse :
    ¬ ∃ deserialize : List Nat → Float32,
      ∀ (host : ByteOrder) (x : Float32) (out : List Nat),
        floatToBytes host x [0, 0, 0, 0] 0 = some out → deserialize out = x := by
  rintro ⟨deserialize, h⟩
  have h1 := h ByteOrder.littleEndian ⟨0x00000001, by decide⟩ [1, 0, 0, 0] (by decide)
  have h2 := h ByteOrder.bigEndian ⟨0x01000000, by decide⟩ [1, 0, 0, 0] (by decide)
  rw [h1] at h2
  revert h2
  decide

/-- C5 as amended: on each host the 4-byte encoding written by `floatToBytes` determines
the bit pattern. For each byte order there is a decoding of the four written bytes that
returns the value bit for bit, for every 32-bit pattern, so the encoding is injective. -/
theorem floatToBytes_left_inverse (host : ByteOrder) (buffer : List Nat) (off : Nat)
    (hbuf : off + 4 ≤ buffer.length) :
    (∃ deserialize : List Nat → Float32, ∀ x : Float32,
      ∃ out, floatToBytes host x buffer off = some out ∧
        deserialize ((out.drop off).take 4) = x) ∧
    (∀ x y : Float32, floatToBytes host x buffer off = floatToBytes host y buffer off →
      x = y) := by
  have hdec : ∃ deserialize : List Nat → Float32, ∀ x : Float32,
      deserialize (objectRepr host x) = x := by
    cases host with
    | littleEndian =>
      refine ⟨fun l => ⟨(l.getD 0 0 + 256 * l.getD 1 0 + 65536 * l.getD 2 0 +
        16777216 * l.getD 3 0) % 2 ^ 32, Nat.mod_lt _ (by decide)⟩, fun x => ?_⟩
      cases x with
      | mk b hb =>
        simp only [objectRepr, List.getD_cons_zero, List.getD_cons_succ, Float32.mk.injEq]
        rw [bits_of_bytes b hb]
        exact Nat.mod_eq_of_lt hb
    | bigEndian =>
      refine ⟨fun l => ⟨(l.getD 3 0 + 256 * l.getD 2 0 + 65536 * l.getD 1 0 +
        16777216 * l.getD 0 0) % 2 ^ 32, Nat.mod_lt _ (by decide)⟩, fun x => ?_⟩
      cases x with
      | mk b hb =>
        simp only [objectRepr, List.getD_cons_zero, List.getD_cons_succ, Float32.mk.injEq]
        rw [bits_of_bytes b hb]
        exact Nat.mod_eq_of_lt hb
  obtain ⟨deserialize, hd⟩ := hdec
  refine ⟨⟨deserialize, fun x => ?_⟩, fun x y hxy => ?_⟩
  · obtain ⟨out, hout, hbytes⟩ := floatToBytes_written host x buffer off hbuf
    exact ⟨out, hout, by rw [hbytes, hd x]⟩
  · obtain ⟨ox, hox, hbx⟩ := floatToBytes_written host x buffer off hbuf
    obtain ⟨oy, hoy, hby⟩ := floatToBytes_written host y buffer off hbuf
    rw [hox, hoy] at hxy
    cases hxy
    rw [← hd x, ← hd y, ← hbx, ← hby]

/-- A 4-byte buffer at offset 0 meets the hypothesis of `floatToBytes_left_inverse`, and
`0.0`, `-0.0` and `-1.0` have three different encodings on a little-endian host. -/
theorem floatToBytes_left_inverse_witness :
    0 + 4 ≤ ([0, 0, 0, 0] : List Nat).length ∧
    ((∃ deserialize : List Nat → Float32, ∀ x : Float32,
      ∃ out, floatToBytes ByteOrder.littleEndian x [0, 0, 0, 0] 0 = some out ∧
        deserialize ((out.drop 0).take 4) = x) ∧
    (∀ x y : Float32, floatToBytes ByteOrder.littleEndian x [0, 0, 0, 0] 0 =
      floatToBytes ByteOrder.littleEndian y [0, 0, 0, 0] 0 → x = y)) ∧
    floatToBytes ByteOrder.littleEndian ⟨0x00000000, by decide⟩ [0, 0, 0, 0] 0 =
      some [0, 0, 0, 0] ∧
    floatToBytes ByteOrder.littleEndian ⟨0x80000000, by decide⟩ [0, 0, 0, 0] 0 =
      some [0, 0, 0, 128] ∧
    floatToBytes ByteOrder.littleEndian ⟨0xBF800000, by decide⟩ [0, 0, 0, 0] 0 =
      some [0, 0, 128, 191] :=
  ⟨by decide, floatToBytes_left_inverse ByteOrder.littleEndian [0, 0, 0, 0] 0 (by decide),
    by decide, by decide, by decide⟩

/-! ### Channel noise -/

section NoiseTheorems

variable {α : Type} [LinearOrderedField α]

theorem unitDraw_nonneg (RAND_MAX r : Nat) : (0 : α) ≤ unitDraw RAND_MAX r :=
  div_nonneg (Nat.cast_nonneg r) (Nat.cast_nonneg RAND_MAX)

theorem unitDraw_le_one (RAND_MAX r : Nat) (hmax : 0 < RAND_MAX) (hr : r ≤ RAND_MAX) :
    (unitDraw RAND_MAX r : α) ≤ 1 := by
  have hpos : (0 : α) < (RAND_MAX : α) := Nat.cast_pos.mpr hmax
  rw [unitDraw, div_le_one hpos]
  exact Nat.cast_le.mpr hr

theorem unitDraw_pos (RAND_MAX r : Nat) (hmax : 0 < RAND_MAX) (hr : 0 < r) :
    (0 : α) < unitDraw RAND_MAX r :=
  div_pos (Nat.cast_pos.mpr hr) (Nat.cast_pos.mpr hmax)

theorem abs_uniformNoise_le (scale : α) (RAND_MAX r : Nat) (hscale : 0 ≤ scale)
    (hmax : 0 < RAND_MAX) (hr : r ≤ RAND_MAX) :
    |uniformNoise scale RAND_MAX r| ≤ scale := by
  have h0 : (0 : α) ≤ unitDraw RAND_MAX r := unitDraw_nonneg RAND_MAX r
  have h1 : (unitDraw RAND_MAX r : α) ≤ 1 := unitDraw_le_one RAND_MAX r hmax hr
  have habs : |2 * unitDraw RAND_MAX r - 1| ≤ (1 : α) := abs_le.mpr ⟨by linarith, by linarith⟩
  rw [uniformNoise, abs_mul, abs_of_nonneg hscale]
  calc scale * |2 * unitDraw RAND_MAX r - 1| ≤ scale * 1 :=
        mul_le_mul_of_nonneg_left habs hscale
    _ = scale := mul_one scale

/-- C6: under the uniform noise model, for every symbol and all draws `r1`, `r2` in
`[0, RAND_MAX]`, the noise components `dI = scale * (2 * r1 / RAND_MAX - 1)` and
`dQ = scale * (2 * r2 / RAND_MAX - 1)` satisfy `|dI| ≤ scale` and `|dQ| ≤ scale` when
`scale ≥ 0`, and the symbol after the noise statements is the symbol before plus
`(dI, dQ)`, component by component. -/
theorem addUniformNoise_bounded (scale : α) (RAND_MAX : Nat) (symbol : α × α) (r1 r2 : Nat)
    (hscale : 0 ≤ scale) (hmax : 0 < RAND_MAX) (h1 : r1 ≤ RAND_MAX) (h2 : r2 ≤ RAND_MAX) :
    |scale * (2 * ((r1 : α) / (RAND_MAX : α)) - 1)| ≤ scale ∧
    |scale * (2 * ((r2 : α) / (RAND_MAX : α)) - 1)| ≤ scale ∧
    addUniformNoise scale RAND_MAX symbol r1 r2 =
      (symbol.1 + scale * (2 * ((r1 : α) / (RAND_MAX : α)) - 1),
        symbol.2 + scale * (2 * ((r2 : α) / (RAND_MAX : α)) - 1)) :=
  ⟨abs_uniformNoise_le scale RAND_MAX r1 hscale hmax h1,
    abs_uniformNoise_le scale RAND_MAX r2 hscale hmax h2, rfl⟩

/-- The configured scale 0.05 with `RAND_MAX = 32767` and the extreme draws 0 and
`RAND_MAX` meet the hypotheses of `addUniformNoise_bounded`; the noise is then
`(-0.05, +0.05)`. -/
theorem addUniformNoise_bounded_witness :
    (0 : ℚ) ≤ NOISE_STD_DEV ∧ 0 < 32767 ∧ 0 ≤ 32767 ∧ 32767 ≤ 32767 ∧
    (|(NOISE_STD_DEV : ℚ) * (2 * (((0 : Nat) : ℚ) / ((32767 : Nat) : ℚ)) - 1)| ≤ NOISE_STD_DEV ∧
    |(NOISE_STD_DEV : ℚ) * (2 * (((32767 : Nat) : ℚ) / ((32767 : Nat) : ℚ)) - 1)| ≤
      NOISE_STD_DEV ∧
    addUniformNoise (NOISE_STD_DEV : ℚ) 32767 (1, 1) 0 32767 =
      (1 + NOISE_STD_DEV * (2 * (((0 : Nat) : ℚ) / ((32767 : Nat) : ℚ)) - 1),
        1 + NOISE_STD_DEV * (2 * (((32767 : Nat) : ℚ) / ((32767 : Nat) : ℚ)) - 1))) ∧
    addUniformNoise (NOISE_STD_DEV : ℚ) 32767 (1, 1) 0 32767 = (19 / 20, 21 / 20) :=
  ⟨by norm_num [NOISE_STD_DEV], by decide, by decide, by decide,
    addUniformNoise_bounded (NOISE_STD_DEV : ℚ) 32767 (1, 1) 0 32767
      (by norm_num [NOISE_STD_DEV]) (by decide) (by decide) (by decide),
    by norm_num [addUniformNoise, uniformNoise, unitDraw, NOISE_STD_DEV]⟩

end NoiseTheorems

/-- With the real logarithm and square root, a draw `r2` in `(0, RAND_MAX]` under the
logarithm gives a real noise sample, the product of the scale, the unit draw and a
square root. -/
theorem gaussNoise_defined (scale : ℝ) (RAND_MAX r1 r2 : Nat) (hmax : 0 < RAND_MAX)
    (h2 : 0 < r2) (h2' : r2 ≤ RAND_MAX) :
    gaussNoise Real.sqrt Real.log scale RAND_MAX r1 r2 =
      some (scale * unitDraw RAND_MAX r1 *
        Real.sqrt (-2 * Real.log (unitDraw RAND_MAX r2))) := by
  have hpos : (0 : ℝ) < unitDraw RAND_MAX r2 := unitDraw_pos RAND_MAX r2 hmax h2
  have hle : (unitDraw RAND_MAX r2 : ℝ) ≤ 1 := unitDraw_le_one RAND_MAX r2 hmax h2'
  have hlog : Real.log (unitDraw RAND_MAX r2) ≤ 0 := Real.log_nonpos hpos.le hle
  have harg : (0 : ℝ) ≤ -2 * Real.log (unitDraw RAND_MAX r2) := by linarith
  simp only [gaussNoise, libmLog, libmSqrt, if_pos hpos, if_pos harg, Option.some_bind,
    Option.map_some']

/-- C7, what the code does: for every scale `≥ 0` (0.05 in `noise.c`, 0.5 in
`UDP_final.c`) and all draws with `0 < r2 ≤ RAND_MAX`, the sample
`NOISE_STD_DEV * (r1/RAND_MAX) * sqrt(-2*ln(r2/RAND_MAX))` is a real number `≥ 0`: the
noise added to a component is never negative. -/
theorem gaussNoise_nonneg (scale : ℝ) (RAND_MAX r1 r2 : Nat) (hscale : 0 ≤ scale)
    (hmax : 0 < RAND_MAX) (h2 : 0 < r2) (h2' : r2 ≤ RAND_MAX) :
    ∃ noise, gaussNoise Real.sqrt Real.log scale RAND_MAX r1 r2 = some noise ∧
      0 ≤ noise :=
  ⟨_, gaussNoise_defined scale RAND_MAX r1 r2 hmax h2 h2',
    mul_nonneg (mul_nonneg hscale (unitDraw_nonneg RAND_MAX r1)) (Real.sqrt_nonneg _)⟩

/-- The scale 0.05 of `noise.c` with `RAND_MAX = 32767`, `r1 = 32767` and `r2 = 1` meets
the hypotheses of `gaussNoise_nonneg`. -/
theorem gaussNoise_nonneg_witness :
    (0 : ℝ) ≤ NOISE_STD_DEV ∧ 0 < 32767 ∧ 0 < 1 ∧ 1 ≤ 32767 ∧
    ∃ noise, gaussNoise Real.sqrt Real.log (NOISE_STD_DEV : ℝ) 32767 32767 1 = some noise ∧
      0 ≤ noise :=
  ⟨by norm_num [NOISE_STD_DEV], by decide, by decide, by decide,
    gaussNoise_nonneg (NOISE_STD_DEV : ℝ) 32767 32767 1 (by norm_num [NOISE_STD_DEV])
      (by decide) (by decide) (by decide)⟩

/-! ### Noise of scale 0 -/

theorem addUniformNoise_zero {α : Type} [LinearOrderedField α] (RAND_MAX : Nat)
    (symbol : α × α) (r1 r2 : Nat) : addUniformNoise 0 RAND_MAX symbol r1 r2 = symbol := by
  simp [addUniformNoise, uniformNoise]

/-- For 0/1 bits the mapping does not look at what the symbol held before. -/
theorem mapBits_indep {α : Type} [Field α] (sqrt2 : α) (bit1 bit2 : Int) (a b c d : α)
    (h1 : bit1 = 0 ∨ bit1 = 1) (h2 : bit2 = 0 ∨ bit2 = 1) :
    mapBits sqrt2 bit1 bit2 a b = mapBits sqrt2 bit1 bit2 c d := by
  rw [mapBits_cases sqrt2 bit1 bit2 a b h1 h2, mapBits_cases sqrt2 bit1 bit2 c d h1 h2]

/-- With scale 0 the loop of `noise-combo.c` returns what the plain modulation loop
returns. -/
theorem modulateNoisyLoop_zero {α : Type} [LinearOrderedField α] (sqrt2 : α)
    (RAND_MAX : Nat) (rand : Nat → Nat) (uninit : α × α) :
    ∀ (n : Nat) (data_bits : List Int) (calls : Nat) (sI sQ : α),
      data_bits.length = 2 * n → (∀ b ∈ data_bits, b = 0 ∨ b = 1) →
      modulateNoisyLoop sqrt2 0 RAND_MAX rand uninit data_bits calls =
        modulateLoop sqrt2 data_bits sI sQ := by
  intro n
  induction n with
  | zero =>
    intro data_bits calls sI sQ hlen _
    have : data_bits = [] := List.length_eq_zero.mp (by simpa using hlen)
    subst this
    rfl
  | succ n ih =>
    intro data_bits calls sI sQ hlen hbits
    match data_bits, hlen, hbits with
    | [], hlen, _ => simp at hlen
    | [_], hlen, _ => simp at hlen; omega
    | bit1 :: bit2 :: rest, hlen, hbits =>
      have hrest : rest.length = 2 * n := by simp at hlen; omega
      have hb1 : bit1 = 0 ∨ bit1 = 1 := hbits bit1 (by simp)
      have hb2 : bit2 = 0 ∨ bit2 = 1 := hbits bit2 (by simp)
      have hm := mapBits_indep sqrt2 bit1 bit2 uninit.1 uninit.2 sI sQ hb1 hb2
      simp only [modulateNoisyLoop, modulateLoop, addUniformNoise_zero, hm]
      rw [ih rest (calls + 2) (mapBits sqrt2 bit1 bit2 sI sQ).1
        (mapBits sqrt2 bit1 bit2 sI sQ).2 hrest (fun b hb => hbits b (by simp [hb]))]

/-- With scale 0 and a draw in `(0, RAND_MAX]` under the logarithm the noise sample of
`noise.c` is the real number 0. -/
theorem gaussNoise_zero (RAND_MAX r1 r2 : Nat) (hmax : 0 < RAND_MAX) (h2 : 0 < r2)
    (h2' : r2 ≤ RAND_MAX) :
    gaussNoise Real.sqrt Real.log 0 RAND_MAX r1 r2 = some 0 := by
  rw [gaussNoise_defined 0 RAND_MAX r1 r2 hmax h2 h2', zero_mul, zero_mul]

theorem gaussNoiseLoop_zero (RAND_MAX : Nat) (rand : Nat → Nat) (hmax : 0 < RAND_MAX)
    (hrange : ∀ k, rand k ≤ RAND_MAX) :
    ∀ (symbols : List (ℝ × ℝ)) (calls : Nat),
      (∀ i, i < symbols.length →
        0 < rand (calls + 4 * i + 1) ∧ 0 < rand (calls + 4 * i + 3)) →
      gaussNoiseLoop Real.sqrt Real.log 0 RAND_MAX rand symbols calls =
        symbols.map (fun s => (some s.1, some s.2)) := by
  intro symbols
  induction symbols with
  | nil => intro _ _; rfl
  | cons symbol rest ih =>
    intro calls hlog
    have h0 := hlog 0 (by simp)
    have hI := gaussNoise_zero RAND_MAX (rand calls) (rand (calls + 1)) hmax
      (by simpa using h0.1) (hrange _)
    have hQ := gaussNoise_zero RAND_MAX (rand (calls + 2)) (rand (calls + 3)) hmax
      (by simpa using h0.2) (hrange _)
    have hrest := ih (calls + 4) (fun i hi => by
      have := hlog (i + 1) (by simp; omega)
      have e1 : calls + 4 * (i + 1) + 1 = calls + 4 + 4 * i + 1 := by omega
      have e3 : calls + 4 * (i + 1) + 3 = calls + 4 + 4 * i + 3 := by omega
      rw [e1, e3] at this
      exact this)
    simp only [gaussNoiseLoop, hI, hQ, hrest, Option.map_some', add_zero, List.map_cons]

theorem inv_sqrt2_near : |1 / Real.sqrt 2 - 0.7071| ≤ (0.0001 : ℝ) := by
  have hpos : 0 < 1 / Real.sqrt 2 := one_div_pos.mpr sqrt2_pos
  have hsq : 1 / Real.sqrt 2 * (1 / Real.sqrt 2) = 1 / 2 := by
    rw [div_mul_div_comm, sqrt2_mul_self, one_mul]
  rw [abs_le]
  constructor
  · by_contra h
    push_neg at h
    nlinarith
  · by_contra h
    push_neg at h
    nlinarith

/-- C10, what the code does at a draw of 0: with scale 0 and a generator that returns 0,
`log(0)` is minus infinity, the sample `0 * 0 * sqrt(+inf)` of the Gaussian-variant
formula is not a real number (a NaN), and the symbol `(1, 1)` does not come out as
`(1, 1)`: the noise stage of scale 0 is not the identity for every sequence of generator
outputs. -/
theorem gaussNoiseLoop_zero_not_identity :
    gaussNoiseLoop Real.sqrt Real.log 0 32767 (fun _ => 0) [((1 : ℝ), (1 : ℝ))] 0 =
      [(none, none)] ∧
    ¬ ∀ (rand : Nat → Nat) (symbols : List (ℝ × ℝ)), (∀ k, rand k ≤ 32767) →
      gaussNoiseLoop Real.sqrt Real.log 0 32767 rand symbols 0 =
        symbols.map (fun s => (some s.1, some s.2)) := by
  have heval : gaussNoiseLoop Real.sqrt Real.log 0 32767 (fun _ => 0)
      [((1 : ℝ), (1 : ℝ))] 0 = [(none, none)] := by
    simp [gaussNoiseLoop, gaussNoise, libmLog, unitDraw]
  refine ⟨heval, fun h => ?_⟩
  have h' := h (fun _ => 0) [((1 : ℝ), (1 : ℝ))] (fun _ => Nat.zero_le _)
  rw [heval] at h'
  simp at h'

/-- Where the noise stage of scale 0 is the identity: for the uniform formula
`scale*(2u-1)` on every symbol and for all generator outputs (so the noisy modulation
loop returns the symbols of the plain one), and for the Gaussian-variant formula
`scale*u1*sqrt(-2*ln(u2))` for all generator outputs in `[0, RAND_MAX]` whose draws under
the logarithm are not 0. -/
theorem noise_scale_zero_identity (sqrt2 : ℝ) (RAND_MAX : Nat) (rand : Nat → Nat)
    (calls : Nat) (data_bits : List Int) (uninit : ℝ × ℝ) (symbol_I symbol_Q : ℝ)
    (symbols : List (ℝ × ℝ))
    (hmax : 0 < RAND_MAX) (hrange : ∀ k, rand k ≤ RAND_MAX)
    (heven : data_bits.length % 2 = 0) (hbits : ∀ b ∈ data_bits, b = 0 ∨ b = 1)
    (hlog : ∀ i, i < symbols.length →
      0 < rand (calls + 4 * i + 1) ∧ 0 < rand (calls + 4 * i + 3)) :
    (∀ (symbol : ℝ × ℝ) (r1 r2 : Nat), addUniformNoise 0 RAND_MAX symbol r1 r2 = symbol) ∧
    modulateNoisyLoop sqrt2 0 RAND_MAX rand uninit data_bits calls =
      modulateLoop sqrt2 data_bits symbol_I symbol_Q ∧
    gaussNoiseLoop Real.sqrt Real.log 0 RAND_MAX rand symbols calls =
      symbols.map (fun s => (some s.1, some s.2)) :=
  ⟨fun symbol r1 r2 => addUniformNoise_zero RAND_MAX symbol r1 r2,
    modulateNoisyLoop_zero sqrt2 RAND_MAX rand uninit (data_bits.length / 2) data_bits calls
      symbol_I symbol_Q (by omega) hbits,
    gaussNoiseLoop_zero RAND_MAX rand hmax hrange symbols calls hlog⟩

/-- The bits `[0,0,0,1,1,0,1,1]`, a generator that always returns 1 and the four ideal
symbols meet the hypotheses of `noise_scale_zero_identity`; after the noise stage of
scale 0 the four symbols are `(±1/sqrt2, ±1/sqrt2)` in table order, within `1e-4` of
`±0.7071`. -/
theorem noise_scale_zero_identity_witness :
    0 < 32767 ∧ (∀ k : Nat, (fun _ : Nat => 1) k ≤ 32767) ∧
    ([0, 0, 0, 1, 1, 0, 1, 1] : List Int).length % 2 = 0 ∧
    (∀ b ∈ ([0, 0, 0, 1, 1, 0, 1, 1] : List Int), b = 0 ∨ b = 1) ∧
    ((∀ (symbol : ℝ × ℝ) (r1 r2 : Nat), addUniformNoise 0 32767 symbol r1 r2 = symbol) ∧
      modulateNoisyLoop (Real.sqrt 2) 0 32767 (fun _ => 1) (0, 0)
          [0, 0, 0, 1, 1, 0, 1, 1] 40 =
        modulateLoop (Real.sqrt 2) [0, 0, 0, 1, 1, 0, 1, 1] 0 0 ∧
      gaussNoiseLoop Real.sqrt Real.log 0 32767 (fun _ => 1)
          [(1 / Real.sqrt 2, 1 / Real.sqrt 2), (-1 / Real.sqrt 2, 1 / Real.sqrt 2),
            (1 / Real.sqrt 2, -1 / Real.sqrt 2), (-1 / Real.sqrt 2, -1 / Real.sqrt 2)] 40 =
        [(1 / Real.sqrt 2, 1 / Real.sqrt 2), (-1 / Real.sqrt 2, 1 / Real.sqrt 2),
          (1 / Real.sqrt 2, -1 / Real.sqrt 2), (-1 / Real.sqrt 2, -1 / Real.sqrt 2)].map
          (fun s => (some s.1, some s.2))) ∧
    modulateLoop (Real.sqrt 2) [0, 0, 0, 1, 1, 0, 1, 1] 0 0 =
      some [(1 / Real.sqrt 2, 1 / Real.sqrt 2), (-1 / Real.sqrt 2, 1 / Real.sqrt 2),
        (1 / Real.sqrt 2, -1 / Real.sqrt 2), (-1 / Real.sqrt 2, -1 / Real.sqrt 2)] ∧
    |1 / Real.sqrt 2 - 0.7071| ≤ (0.0001 : ℝ) ∧
    |-1 / Real.sqrt 2 - (-0.7071)| ≤ (0.0001 : ℝ) :=
  ⟨by decide, fun _ => (by decide : 1 ≤ 32767), by decide, by decide,
    noise_scale_zero_identity (Real.sqrt 2) 32767 (fun _ => 1) 40 [0, 0, 0, 1, 1, 0, 1, 1]
      (0, 0) 0 0 _ (by decide) (fun _ => (by decide : 1 ≤ 32767)) (by decide) (by decide)
      (fun _ _ => ⟨Nat.one_pos, Nat.one_pos⟩),
    by simp [modulateLoop, mapBits],
    inv_sqrt2_near,
    by rw [neg_div, ← neg_sub', abs_neg]; exact inv_sqrt2_near⟩

/-! ### Bit generation -/

theorem tmod_two_bit (r : Nat) : Int.tmod (r : Int) 2 = 0 ∨ Int.tmod (r : Int) 2 = 1 := by
  have h : Int.tmod (r : Int) 2 = ((r % 2 : Nat) : Int) := (Int.ofNat_tmod r 2).symm
  rw [h]
  rcases Nat.mod_two_eq_zero_or_one r with h0 | h1
  · left; rw [h0]; rfl
  · right; rw [h1]; rfl

/-- The generation loop inside the array assigns `rand() % 2` to the indices
`lo, ..., lo + n - 1` and changes nothing else. -/
theorem generateLoop_spec (rand : Nat → Nat) :
    ∀ (n lo : Nat) (bits : List Int), lo + n ≤ bits.length →
      ∃ out, forLoopFrom (fun i bits =>
          if i < bits.length then some (bits.set i (Int.tmod (rand i) 2)) else none)
          n lo bits = some out ∧
        out.length = bits.length ∧
        ∀ k, out[k]? =
          if lo ≤ k ∧ k < lo + n then some (Int.tmod (rand k) 2) else bits[k]? := by
  intro n
  induction n with
  | zero =>
    intro lo bits _
    refine ⟨bits, rfl, rfl, fun k => ?_⟩
    have : ¬ (lo ≤ k ∧ k < lo + 0) := by omega
    rw [if_neg this]
  | succ n ih =>
    intro lo bits hlen
    have hlo : lo < bits.length := by omega
    obtain ⟨out, hrun, hlen', hget⟩ :=
      ih (lo + 1) (bits.set lo (Int.tmod (rand lo) 2))
        (by rw [List.length_set]; omega)
    refine ⟨out, ?_, ?_, fun k => ?_⟩
    · simp only [forLoopFrom, hlo, if_true, Option.some_bind]
      exact hrun
    · rw [hlen', List.length_set]
    · rw [hget k]
      by_cases hk : lo + 1 ≤ k ∧ k < lo + 1 + n
      · have : lo ≤ k ∧ k < lo + (n + 1) := by omega
        rw [if_pos hk, if_pos this]
      · by_cases hk0 : k = lo
        · subst hk0
          have : k ≤ k ∧ k < k + (n + 1) := by omega
          rw [if_neg hk, if_pos this]
          simp [hlo]
        · have : ¬ (lo ≤ k ∧ k < lo + (n + 1)) := by omega
          rw [if_neg hk, if_neg this]
          exact List.getElem?_set_ne (fun h => hk0 h.symm)

/-- Generating `count` bits into an array of `count` elements gives `count` elements,
element `i` being the remainder of the `i`-th draw, a 0 or a 1. -/
theorem generateBits_spec (rand : Nat → Nat) (count : Nat) (data_bits : List Int)
    (hlen : data_bits.length = count) :
    ∃ bits, generateBits rand count data_bits = some bits ∧ bits.length = count ∧
      (∀ i, i < count → bits[i]? = some (Int.tmod (rand i) 2)) ∧
      ∀ b ∈ bits, b = 0 ∨ b = 1 := by
  obtain ⟨out, hrun, hl, hget⟩ := generateLoop_spec rand count 0 data_bits (by omega)
  have hval : ∀ i, i < count → out[i]? = some (Int.tmod (rand i) 2) := by
    intro i hi
    rw [hget i, if_pos ⟨Nat.zero_le i, by omega⟩]
  refine ⟨out, hrun, by rw [hl, hlen], hval, fun b hb => ?_⟩
  obtain ⟨i, hi, hbi⟩ := List.getElem_of_mem hb
  have hi' : i < count := by rw [← hlen, ← hl]; exact hi
  have h1 := hval i hi'
  rw [List.getElem?_eq_getElem hi, hbi] at h1
  cases h1
  exact tmod_two_bit (rand i)

/-- C14: for every sequence of generator outputs the generated bit sequence has exactly
`BITS_COUNT = 40` elements, an even number equal to `2 * SYMBOLS_COUNT`, and every
element, computed as `rand() % 2`, is 0 or 1. -/
theorem generateBits_forty_bits (rand : Nat → Nat) (data_bits : List Int)
    (hlen : data_bits.length = BITS_COUNT) :
    ∃ bits, generateBits rand BITS_COUNT data_bits = some bits ∧
      bits.length = 40 ∧ BITS_COUNT = 40 ∧ BITS_COUNT % 2 = 0 ∧
      BITS_COUNT = 2 * SYMBOLS_COUNT ∧
      (∀ i, i < 40 → bits[i]? = some (Int.tmod (rand i) 2)) ∧
      ∀ b ∈ bits, b = 0 ∨ b = 1 := by
  obtain ⟨bits, hrun, hl, hval, hbit⟩ := generateBits_spec rand BITS_COUNT data_bits hlen
  exact ⟨bits, hrun, hl, rfl, rfl, rfl, hval, hbit⟩

/-- An array of 40 elements and the generator `0, 1, 2, ...` meet the hypothesis of
`generateBits_forty_bits`; the bits alternate. -/
theorem generateBits_forty_bits_witness :
    (List.replicate 40 (7 : Int)).length = BITS_COUNT ∧
    (∃ bits, generateBits (fun k => k) BITS_COUNT (List.replicate 40 7) = some bits ∧
      bits.length = 40 ∧ BITS_COUNT = 40 ∧ BITS_COUNT % 2 = 0 ∧
      BITS_COUNT = 2 * SYMBOLS_COUNT ∧
      (∀ i, i < 40 → bits[i]? = some (Int.tmod ((fun k => k) i : Nat) 2)) ∧
      ∀ b ∈ bits, b = 0 ∨ b = 1) ∧
    generateBits (fun k => k) 4 (List.replicate 4 7) = some [0, 1, 0, 1] :=
  ⟨List.length_replicate _ _,
    generateBits_forty_bits (fun k => k) (List.replicate 40 7) (List.length_replicate _ _),
    by decide⟩

/-- The claim C12 as stated fails: with the odd count 3 the generation loop does not
fail, it yields three bits, and the modulation loop run on three bits reads
`data_bits[3]`, past the end of the array. -/
theorem generateBits_odd_count_yields_bits :
    generateBits (fun _ => 1) 3 [0, 0, 0] = some [1, 1, 1] ∧
    modulateLoop (Real.sqrt 2) [1, 1, 1] 0 0 = none ∧
    ¬ ∀ (rand : Nat → Nat) (count : Nat) (data_bits : List Int),
      count % 2 = 1 ∨ count < 2 → data_bits.length = count →
      generateBits rand count data_bits = none := by
  have h : generateBits (fun _ => 1) 3 [0, 0, 0] = some [1, 1, 1] := by decide
  refine ⟨h, by simp [modulateLoop], fun hall => ?_⟩
  have h' := hall (fun _ => 1) 3 [0, 0, 0] (Or.inl (by decide)) rfl
  rw [h] at h'
  cases h'

/-- C12 as amended: the number of bits is the constant `BITS_COUNT = 40`, even and at
least 2; the generation loop has no failure path and yields exactly 40 bits, and the
modulation loop consumes them as `SYMBOLS_COUNT = 20` pairs, reading no element past the
end of the array and dropping none. -/
theorem generateBits_then_modulate {α : Type} [Field α] (sqrt2 : α) (rand : Nat → Nat)
    (data_bits : List Int) (symbol_I symbol_Q : α)
    (hlen : data_bits.length = BITS_COUNT) :
    BITS_COUNT % 2 = 0 ∧ 2 ≤ BITS_COUNT ∧
    ∃ bits symbols, generateBits rand BITS_COUNT data_bits = some bits ∧
      bits.length = BITS_COUNT ∧
      modulateLoop sqrt2 bits symbol_I symbol_Q = some symbols ∧
      symbols.length = SYMBOLS_COUNT ∧ 2 * symbols.length = bits.length := by
  obtain ⟨bits, hrun, hl, _, hbit⟩ := generateBits_spec rand BITS_COUNT data_bits hlen
  obtain ⟨symbols, hmod, hsl, _⟩ :=
    modulateLoop_spec sqrt2 SYMBOLS_COUNT bits symbol_I symbol_Q (by rw [hl]; rfl) hbit
  exact ⟨rfl, by decide, bits, symbols, hrun, hl, hmod, hsl, by rw [hsl, hl]; rfl⟩

/-- An array of 40 elements meets the hypothesis of `generateBits_then_modulate`. -/
theorem generateBits_then_modulate_witness :
    (List.replicate 40 (7 : Int)).length = BITS_COUNT ∧
    (BITS_COUNT % 2 = 0 ∧ 2 ≤ BITS_COUNT ∧
    ∃ bits symbols, generateBits (fun k => k) BITS_COUNT (List.replicate 40 7) = some bits ∧
      bits.length = BITS_COUNT ∧
      modulateLoop (Real.sqrt 2) bits 0 0 = some symbols ∧
      symbols.length = SYMBOLS_COUNT ∧ 2 * symbols.length = bits.length) :=
  ⟨List.length_replicate _ _,
    generateBits_then_modulate (Real.sqrt 2) (fun k => k) (List.replicate 40 7) 0 0
      (List.length_replicate _ _)⟩

/-! ### The transport step -/

/-- C13, what the code does: when the socket was created, the run ends with status 0,
prints the success message and makes one `sendto` call whatever that call returned, a
failure `-1` included; only a failed socket creation ends with status 1. -/
theorem transmit_ignores_sendto_result :
    transmit 3 (-1) = ⟨0, [Output.messageHasBeenSent], 1⟩ ∧
    (∀ sendtoResult : Int, transmit 3 sendtoResult = ⟨0, [Output.messageHasBeenSent], 1⟩) ∧
    (∀ sendtoResult : Int,
      transmit (-1) sendtoResult = ⟨1, [Output.socketCreationFailed], 0⟩) ∧
    ∀ sockfd sendtoResult : Int, (transmit sockfd sendtoResult).sends ≤ 1 := by
  refine ⟨rfl, fun _ => rfl, fun _ => rfl, fun sockfd _ => ?_⟩
  unfold transmit
  split <;> simp

/-! ### The byte conversion of the padded frame -/

theorem floatToBytes_outside (host : ByteOrder) (value : Float32) (buffer : List Nat)
    (off : Nat) (h : buffer.length < off + 4) : floatToBytes host value buffer off = none := by
  unfold floatToBytes memcpy sizeofFloat
  rw [if_neg (fun hc => by omega)]

/-- The conversion loop of `UDP_final.c` over a buffer of 160 bytes: the passes below
`i = 40` stay inside the buffer, the pass `i = 40` writes at offset 160. -/
theorem combToBytes_loop (host : ByteOrder) (comb : List Float32) (hcomb : 40 < comb.length) :
    ∀ (n lo : Nat) (buffer : List Nat), buffer.length = 160 → lo ≤ 40 → 40 < lo + n →
      forLoopFrom (fun i buffer =>
        (comb[i]?).bind fun value => floatToBytes host value buffer (4 * i)) n lo buffer =
        none := by
  intro n
  induction n with
  | zero => intro lo buffer _ h1 h2; omega
  | succ n ih =>
    intro lo buffer hlen h1 h2
    have hlo : lo < comb.length := by omega
    simp only [forLoopFrom, List.getElem?_eq_getElem hlo, Option.some_bind]
    by_cases h40 : lo = 40
    · rw [floatToBytes_outside host _ buffer (4 * lo) (by omega)]
      rfl
    · rw [floatToBytes_eq host _ buffer (4 * lo) (by omega), Option.some_bind]
      refine ih (lo + 1) _ ?_ (by omega) (by omega)
      have := splice_length buffer (objectRepr host comb[lo]) (4 * lo)
        (by rw [objectRepr_length]; omega)
      rw [objectRepr_length] at this
      rw [this, hlen]

/-- C17, what the code does: `byteBuffer` has 160 bytes, so only the passes `i < 40` write
inside it; every pass from `i = 40` on writes at offsets `4i .. 4i+3` that are not below
160, and the loop over the 768 values has no defined result. -/
theorem combToBytes_overflows (host : ByteOrder) (comb : List Float32)
    (byteBuffer : List Nat) (hcomb : comb.length = COMBINATION_LENGTH)
    (hbuf : byteBuffer.length = SYMBOLS_COUNT * sizeofFloat * 2) :
    byteBuffer.length = 160 ∧
    (∀ i, i < 768 → (4 * i + 3 < byteBuffer.length ↔ i < 40)) ∧
    (∀ value : Float32, floatToBytes host value byteBuffer (4 * 40) = none) ∧
    combToBytes host comb byteBuffer = none := by
  have hb : byteBuffer.length = 160 := hbuf
  have hc : comb.length = 768 := hcomb
  refine ⟨hb, fun i _ => by omega, fun value => ?_, ?_⟩
  · exact floatToBytes_outside host value byteBuffer (4 * 40) (by omega)
  · exact combToBytes_loop host comb (by omega) 768 0 byteBuffer hb (by omega) (by omega)

/-- A frame of 768 zeros and a zeroed buffer of 160 bytes meet the hypotheses of
`combToBytes_overflows`. -/
theorem combToBytes_overflows_witness :
    (List.replicate 768 Float32.zero).length = COMBINATION_LENGTH ∧
    (List.replicate 160 (0 : Nat)).length = SYMBOLS_COUNT * sizeofFloat * 2 ∧
    ((List.replicate 160 (0 : Nat)).length = 160 ∧
    (∀ i, i < 768 → (4 * i + 3 < (List.replicate 160 (0 : Nat)).length ↔ i < 40)) ∧
    (∀ value : Float32,
      floatToBytes ByteOrder.littleEndian value (List.replicate 160 0) (4 * 40) = none) ∧
    combToBytes ByteOrder.littleEndian (List.replicate 768 Float32.zero)
      (List.replicate 160 0) = none) :=
  ⟨List.length_replicate _ _, List.length_replicate _ _,
    combToBytes_overflows ByteOrder.littleEndian (List.replicate 768 Float32.zero)
      (List.replicate 160 0) (List.length_replicate _ _) (List.length_replicate _ _)⟩

/-! ### Uniform noise and the quadrant of a symbol -/

theorem inv_sqrt2_gt : (0.707 : ℝ) ≤ 1 / Real.sqrt 2 := by
  have h := abs_le.mp inv_sqrt2_near
  linarith [h.1]

/-- A component `±1/sqrt2` moved by uniform noise of a scale below `1/sqrt2` keeps its
sign. -/
theorem noisy_component_sign (scale c : ℝ) (RAND_MAX r : Nat) (hs0 : 0 ≤ scale)
    (hs : scale < c) (hmax : 0 < RAND_MAX) (hr : r ≤ RAND_MAX) :
    0 < c + uniformNoise scale RAND_MAX r ∧ -c + uniformNoise scale RAND_MAX r < 0 := by
  have h := abs_le.mp (abs_uniformNoise_le scale RAND_MAX r hs0 hmax hr)
  constructor <;> linarith [h.1, h.2]

/-- C18: uniform noise of a scale in `[0, 1/sqrt2)`, in particular of the configured
scales 0.05 and 0.1, never moves a symbol out of its quadrant. For every bit pair and all
draws in `[0, RAND_MAX]` the noisy components are non-zero and have the signs of the
ideal ones, so the bits are read off the signs: the second bit is 1 iff `I + dI < 0` and
the first bit is 1 iff `Q + dQ < 0`. -/
theorem uniform_noise_keeps_quadrant (bit1 bit2 : Int) (scale : ℝ) (RAND_MAX r1 r2 : Nat)
    (uninit : ℝ × ℝ) (hb1 : bit1 = 0 ∨ bit1 = 1) (hb2 : bit2 = 0 ∨ bit2 = 1)
    (hs0 : 0 ≤ scale) (hs : scale < 1 / Real.sqrt 2) (hmax : 0 < RAND_MAX)
    (hr1 : r1 ≤ RAND_MAX) (hr2 : r2 ≤ RAND_MAX) :
    ((addUniformNoise scale RAND_MAX (mapBits (Real.sqrt 2) bit1 bit2 uninit.1 uninit.2)
        r1 r2).1 ≠ 0 ∧
      (addUniformNoise scale RAND_MAX (mapBits (Real.sqrt 2) bit1 bit2 uninit.1 uninit.2)
        r1 r2).2 ≠ 0) ∧
    (SignType.sign (addUniformNoise scale RAND_MAX
        (mapBits (Real.sqrt 2) bit1 bit2 uninit.1 uninit.2) r1 r2).1 =
      SignType.sign (mapBits (Real.sqrt 2) bit1 bit2 uninit.1 uninit.2).1 ∧
     SignType.sign (addUniformNoise scale RAND_MAX
        (mapBits (Real.sqrt 2) bit1 bit2 uninit.1 uninit.2) r1 r2).2 =
      SignType.sign (mapBits (Real.sqrt 2) bit1 bit2 uninit.1 uninit.2).2) ∧
    ((bit2 = 1 ↔ (addUniformNoise scale RAND_MAX
        (mapBits (Real.sqrt 2) bit1 bit2 uninit.1 uninit.2) r1 r2).1 < 0) ∧
     (bit1 = 1 ↔ (addUniformNoise scale RAND_MAX
        (mapBits (Real.sqrt 2) bit1 bit2 uninit.1 uninit.2) r1 r2).2 < 0)) ∧
    ((0 : ℝ) ≤ NOISE_STD_DEV ∧ (NOISE_STD_DEV : ℝ) < 1 / Real.sqrt 2 ∧
      (0 : ℝ) ≤ NOISE_STD_DEV_ascii ∧ (NOISE_STD_DEV_ascii : ℝ) < 1 / Real.sqrt 2) := by
  have hp := sign_one_div_pos (Real.sqrt 2) sqrt2_pos
  have hn := sign_neg_one_div_pos (Real.sqrt 2) sqrt2_pos
  have hI := noisy_component_sign scale (1 / Real.sqrt 2) RAND_MAX r1 hs0 hs hmax hr1
  have hQ := noisy_component_sign scale (1 / Real.sqrt 2) RAND_MAX r2 hs0 hs hmax hr2
  have hneg : -1 / Real.sqrt 2 = -(1 / Real.sqrt 2) := neg_div _ _
  have hlow := inv_sqrt2_gt
  have hconst : (0 : ℝ) ≤ NOISE_STD_DEV ∧ (NOISE_STD_DEV : ℝ) < 1 / Real.sqrt 2 ∧
      (0 : ℝ) ≤ NOISE_STD_DEV_ascii ∧ (NOISE_STD_DEV_ascii : ℝ) < 1 / Real.sqrt 2 := by
    unfold NOISE_STD_DEV NOISE_STD_DEV_ascii
    refine ⟨by norm_num, ?_, by norm_num, ?_⟩ <;> linarith
  rw [mapBits_cases _ _ _ _ _ hb1 hb2]
  simp only [addUniformNoise]
  rcases hb1 with rfl | rfl <;> rcases hb2 with rfl | rfl <;>
    simp only [if_true, if_false, one_ne_zero, hneg] <;>
    refine ⟨⟨?_, ?_⟩, ⟨?_, ?_⟩, ⟨?_, ?_⟩, hconst⟩ <;>
    first
      | exact ne_of_gt hI.1
      | exact ne_of_gt hQ.1
      | exact ne_of_lt hI.2
      | exact ne_of_lt hQ.2
      | (rw [sign_pos hI.1, hp])
      | (rw [sign_pos hQ.1, hp])
      | (rw [sign_neg hI.2, ← hneg, hn])
      | (rw [sign_neg hQ.2, ← hneg, hn])
      | (constructor <;> intro h <;>
          first
            | exact hI.2
            | exact hQ.2
            | trivial
            | exact h.elim
            | exact absurd h (by decide)
            | exact absurd h (not_lt.mpr hI.1.le)
            | exact absurd h (not_lt.mpr hQ.1.le))

/-- The bit pair `(0, 1)`, the scale 0.05 and the extreme draws 0 and `RAND_MAX = 32767`
meet the hypotheses of `uniform_noise_keeps_quadrant`. -/
theorem uniform_noise_keeps_quadrant_witness :
    ((0 : Int) = 0 ∨ (0 : Int) = 1) ∧ ((1 : Int) = 0 ∨ (1 : Int) = 1) ∧
    (0 : ℝ) ≤ NOISE_STD_DEV ∧ (NOISE_STD_DEV : ℝ) < 1 / Real.sqrt 2 ∧
    0 < 32767 ∧ 0 ≤ 32767 ∧ 32767 ≤ 32767 ∧
    ((1 : Int) = 1 ↔ (addUniformNoise (NOISE_STD_DEV : ℝ) 32767
        (mapBits (Real.sqrt 2) 0 1 0 0) 0 32767).1 < 0) ∧
    ((0 : Int) = 1 ↔ (addUniformNoise (NOISE_STD_DEV : ℝ) 32767
        (mapBits (Real.sqrt 2) 0 1 0 0) 0 32767).2 < 0) :=
  have hlow := inv_sqrt2_gt
  have h0 : (0 : ℝ) ≤ NOISE_STD_DEV := by unfold NOISE_STD_DEV; norm_num
  have h1 : (NOISE_STD_DEV : ℝ) < 1 / Real.sqrt 2 := by unfold NOISE_STD_DEV; linarith
  have h := uniform_noise_keeps_quadrant 0 1 (NOISE_STD_DEV : ℝ) 32767 0 32767 (0, 0)
    (by decide) (by decide) h0 h1 (by decide) (by decide) (by decide)
  ⟨by decide, by decide, h0, h1, by decide, by decide, by decide, h.2.2.1.1, h.2.2.1.2⟩

/-! ### The text payload -/

theorem snprintfAt_some (buff : List Nat) (offset : Nat) (size : Int) (text : List Nat)
    (r : List Nat × Nat) (h : snprintfAt buff offset size text = some r) :
    r.2 = text.length ∧ r.1.length = buff.length ∧ offset ≤ buff.length := by
  unfold snprintfAt at h
  by_cases h0 : buff.length < offset
  · rw [if_pos h0] at h
    cases h
  · rw [if_neg h0] at h
    by_cases h1 : size = 0
    · rw [if_pos h1] at h
      cases h
      exact ⟨rfl, rfl, by omega⟩
    · rw [if_neg h1] at h
      dsimp only at h
      by_cases h2 : offset +
          (List.take (if size < 0 then text.length else (size - 1).toNat) text ++ [0]).length ≤
            buff.length
      · rw [if_pos h2] at h
        cases h
        exact ⟨rfl, splice_length buff _ offset h2, by omega⟩
      · rw [if_neg h2] at h
        cases h

theorem snprintfAt_beyond (buff : List Nat) (offset : Nat) (size : Int) (text : List Nat)
    (h : buff.length < offset) : snprintfAt buff offset size text = none := by
  unfold snprintfAt
  rw [if_pos h]

theorem symbolText_length {α : Type} (fmt : α → List Nat) (symbol : α × α)
    (hfmt : ∀ x, 8 ≤ (fmt x).length) : 19 ≤ (symbolText fmt symbol).length := by
  have h1 := hfmt symbol.1
  have h2 := hfmt symbol.2
  simp only [symbolText, List.length_append, List.length_singleton]
  omega

theorem specText_length {α : Type} (fmt : α → List Nat) (hfmt : ∀ x, 8 ≤ (fmt x).length) :
    ∀ symbols : List (α × α), 20 * symbols.length ≤ (specText fmt symbols).length + 1
  | [] => by simp
  | [symbol] => by
    have := symbolText_length fmt symbol hfmt
    simp only [specText, List.length_singleton]
    omega
  | symbol :: next :: rest => by
    have := symbolText_length fmt symbol hfmt
    have ih := specText_length fmt hfmt (next :: rest)
    simp only [specText, List.length_append, List.length_singleton, List.length_cons] at ih ⊢
    omega

/-- From a state whose offset is at least `20 * lo`, the passes `lo, ..., 19` of the text
loop have no defined result: each pass adds at least 20 to the offset (19 bytes or more
for the symbol, one for the comma), and the last pass starts with an offset of at least
380, beyond the 256 bytes of `buff`. -/
theorem symbolsToText_loop {α : Type} (fmt : α → List Nat) (qpsk_symbols : List (α × α))
    (hfmt : ∀ x, 8 ≤ (fmt x).length) (hlen : qpsk_symbols.length = 20) :
    ∀ (n lo : Nat) (st : List Nat × Nat), st.1.length = 256 → 20 * lo ≤ st.2 →
      lo + n = 20 → 0 < n →
      forLoopFrom (symbolsToTextPass fmt qpsk_symbols) n lo st = none := by
  intro n
  induction n with
  | zero => intro lo st _ _ _ h; omega
  | succ n ih =>
    intro lo st hbuf hoff hn _
    have hlo : lo < qpsk_symbols.length := by omega
    simp only [forLoopFrom, symbolsToTextPass, List.getElem?_eq_getElem hlo,
      Option.some_bind]
    by_cases hlast : lo = 19
    · rw [snprintfAt_beyond st.1 st.2 _ _ (by omega)]
      rfl
    · have hcomma : lo < SYMBOLS_COUNT - 1 := by show lo < 20 - 1; omega
      simp only [if_pos hcomma]
      cases h1 : snprintfAt st.1 st.2 ((BUFFER_SIZE : Int) - (st.2 : Int))
          (symbolText fmt qpsk_symbols[lo]) with
      | none => rfl
      | some r =>
        obtain ⟨hr2, hr1, _⟩ := snprintfAt_some _ _ _ _ r h1
        have h19 := symbolText_length fmt qpsk_symbols[lo] hfmt
        simp only [Option.some_bind]
        cases h2 : snprintfAt r.1 (st.2 + r.2)
            ((BUFFER_SIZE : Int) - ((st.2 + r.2 : Nat) : Int)) [44] with
        | none => rfl
        | some r2 =>
          obtain ⟨hc2, hc1, _⟩ := snprintfAt_some _ _ _ _ r2 h2
          simp only [Option.map_some', Option.some_bind]
          exact ih (lo + 1) (r2.1, st.2 + r.2 + r2.2) (by rw [hc1, hr1, hbuf])
            (by simp only [hc2, hr2, List.length_singleton]; omega) (by omega) (by omega)

/-- C11, what the code does: every `%f` rendering has at least 8 characters, so the text
`"(r0,i0),...,(r19,i19)"` has at least 399 characters and does not fit the 256-byte
`buff`. For every 20 symbols the loop runs into a call of `snprintf` with `buff + offset`
beyond the end of `buff` (and a negative size), and no payload holds the whole text. -/
theorem textPayload_overflows {α : Type} (fmt : α → List Nat) (qpsk_symbols : List (α × α))
    (hfmt : ∀ x, 8 ≤ (fmt x).length) (hlen : qpsk_symbols.length = SYMBOLS_COUNT) :
    BUFFER_SIZE < 399 ∧ 399 ≤ (specText fmt qpsk_symbols).length ∧
    textPayload fmt qpsk_symbols = none := by
  have hlen' : qpsk_symbols.length = 20 := hlen
  refine ⟨by decide, ?_, ?_⟩
  · have := specText_length fmt hfmt qpsk_symbols
    omega
  · have hrun : symbolsToText fmt qpsk_symbols = none :=
      symbolsToText_loop fmt qpsk_symbols hfmt hlen' 20 0 _ (List.length_replicate _ _)
        (by omega) (by omega) (by omega)
    rw [textPayload, hrun]
    rfl

/-- Twenty symbols `(0.707107, -0.707107)`, rendered as `%f` renders them, meet the
hypotheses of `textPayload_overflows`; two symbols of that text and the comma between
them already take 41 of the 256 bytes. -/
theorem textPayload_overflows_witness :
    (∀ x : Bool, 8 ≤ ((fun b : Bool =>
      if b then [48, 46, 55, 48, 55, 49, 48, 55]
      else [45, 48, 46, 55, 48, 55, 49, 48, 55]) x).length) ∧
    (List.replicate 20 (true, false)).length = SYMBOLS_COUNT ∧
    (BUFFER_SIZE < 399 ∧
      399 ≤ (specText (fun b : Bool =>
        if b then [48, 46, 55, 48, 55, 49, 48, 55]
        else [45, 48, 46, 55, 48, 55, 49, 48, 55])
        (List.replicate 20 (true, false))).length ∧
      textPayload (fun b : Bool =>
        if b then [48, 46, 55, 48, 55, 49, 48, 55]
        else [45, 48, 46, 55, 48, 55, 49, 48, 55])
        (List.replicate 20 (true, false)) = none) ∧
    (specText (fun b : Bool =>
        if b then [48, 46, 55, 48, 55, 49, 48, 55]
        else [45, 48, 46, 55, 48, 55, 49, 48, 55])
        (List.replicate 2 (true, false))).length = 41 :=
  ⟨fun x => by cases x <;> decide, List.length_replicate _ _,
    textPayload_overflows _ (List.replicate 20 (true, false))
      (fun x => by cases x <;> decide) (List.length_replicate _ _),
    by decide⟩

/-! ### Configuration -/

theorem processLine_ignored (atoi : List Nat → Int) (config : UDPConfig) (line : List Nat)
    (h : ignoredLine line) : processLine atoi config line = config := by
  unfold processLine
  by_cases hc : line.head? = some 35 ∨ line.head? = some 10 ∨ line.head? = some 13
  · rw [if_pos hc]
  · rw [if_neg hc]
    rcases h with h | h | ⟨h1, h2, h3⟩
    · exact absurd h hc
    · rw [if_neg h]
    · by_cases hs : (sscanfKeyValue (cString line)).1 = 2
      · rw [if_pos hs, if_neg (fun hk => hk.elim h1 h2), if_neg h3]
      · rw [if_neg hs]

theorem foldl_processLine_ignored (atoi : List Nat → Int) :
    ∀ (lines : List (List Nat)) (config : UDPConfig), (∀ line ∈ lines, ignoredLine line) →
      lines.foldl (processLine atoi) config = config
  | [], _, _ => rfl
  | line :: rest, config, h => by
    rw [List.foldl_cons, processLine_ignored atoi config line (h line (by simp))]
    exact foldl_processLine_ignored atoi rest config (fun l hl => h l (by simp [hl]))

theorem processLine_ip_changed (atoi : List Nat → Int) (config : UDPConfig) (line : List Nat)
    (h : (processLine atoi config line).ip_address ≠ config.ip_address) :
    lineKey line = keyIp ∨ lineKey line = keyIpAddress := by
  unfold processLine at h
  split at h
  · exact absurd rfl h
  · split at h
    · split at h
      · assumption
      · split at h <;> exact absurd rfl h
    · exact absurd rfl h

theorem processLine_port_changed (atoi : List Nat → Int) (config : UDPConfig)
    (line : List Nat) (h : (processLine atoi config line).port ≠ config.port) :
    lineKey line = keyPort := by
  unfold processLine at h
  split at h
  · exact absurd rfl h
  · split at h
    · split at h
      · exact absurd rfl h
      · split at h
        · assumption
        · exact absurd rfl h
    · exact absurd rfl h

/-- The claim C15 as stated fails: the line `ip x=5` is a key=value line whose key `ip x`
is none of `ip`, `ip_address`, `port`, and loading it over the defaults changes
`ip_address` from `127.0.0.1` to `5`, because the key is cut at its first space. -/
theorem load_udp_config_key_cut :
    sscanfKeyValue [105, 112, 32, 120, 61, 53, 10] = (2, [105, 112, 32, 120], [53]) ∧
    ([105, 112, 32, 120] ≠ keyIp ∧ [105, 112, 32, 120] ≠ keyIpAddress ∧
      [105, 112, 32, 120] ≠ keyPort) ∧
    init_udp_config ⟨[], 0⟩ = ⟨DEFAULT_IP, 9090⟩ ∧
    load_udp_config (fun _ => 0) (init_udp_config ⟨[], 0⟩)
      (some [105, 112, 32, 120, 61, 53, 10]) = (1, ⟨[53], 9090⟩) := by
  decide

/-- C15 as amended: for every `UDPConfig` and every line as one `fgets` call stores it (a
whole line of the file when it has at most 255 bytes), a line that starts with `#`, a
line that starts with newline or carriage return, a line for which `sscanf` does not
find `key=value`, and a line whose key, cut at its first space or tab, is none of `ip`,
`ip_address`, `port` leave the configuration as it was; a line that changes `ip_address`
has the key `ip` or `ip_address` and a line that changes `port` has the key `port`; a
file of ignored lines leaves the configuration as it was; and when the file is missing
the configuration is not touched, so after `init_udp_config` it is `127.0.0.1`, 9090. -/
theorem processLine_frame (atoi : List Nat → Int) (config : UDPConfig) (line : List Nat)
    (content : List Nat) :
    (ignoredLine line → processLine atoi config line = config) ∧
    ((processLine atoi config line).ip_address ≠ config.ip_address →
      lineKey line = keyIp ∨ lineKey line = keyIpAddress) ∧
    ((processLine atoi config line).port ≠ config.port → lineKey line = keyPort) ∧
    ((∀ l ∈ fgetsLines content [], ignoredLine l) →
      load_udp_config atoi config (some content) = (1, config)) ∧
    load_udp_config atoi config none = (0, config) ∧
    load_udp_config atoi (init_udp_config config) none = (0, ⟨DEFAULT_IP, 9090⟩) := by
  refine ⟨processLine_ignored atoi config line, processLine_ip_changed atoi config line,
    processLine_port_changed atoi config line, fun h => ?_, rfl, rfl⟩
  show (1, (fgetsLines content []).foldl (processLine atoi) config) = (1, config)
  rw [foldl_processLine_ignored atoi _ config h]

/-- A comment line, a blank line and a line with an unknown key are ignored lines, the
file made of them leaves the defaults in place, and the lines `ip=10.0.0.1` and
`port=8080` change one field each. -/
theorem processLine_frame_witness :
    ignoredLine [35, 32, 99, 10] ∧ ignoredLine [10] ∧ ignoredLine [102, 111, 111, 61, 49, 10] ∧
    processLine (fun _ => 8080) ⟨DEFAULT_IP, 9090⟩ [35, 32, 99, 10] = ⟨DEFAULT_IP, 9090⟩ ∧
    load_udp_config (fun _ => 8080) ⟨DEFAULT_IP, 9090⟩
      (some [35, 32, 99, 10, 10, 102, 111, 111, 61, 49, 10]) = (1, ⟨DEFAULT_IP, 9090⟩) ∧
    processLine (fun _ => 8080) ⟨DEFAULT_IP, 9090⟩
      [105, 112, 61, 49, 48, 46, 48, 46, 48, 46, 49, 10] =
        ⟨[49, 48, 46, 48, 46, 48, 46, 49], 9090⟩ ∧
    processLine (fun _ => 8080) ⟨DEFAULT_IP, 9090⟩
      [112, 111, 114, 116, 61, 56, 48, 56, 48, 10] = ⟨DEFAULT_IP, 8080⟩ :=
  have h1 : ignoredLine [35, 32, 99, 10] := Or.inl (Or.inl rfl)
  have h2 : ignoredLine [10] := Or.inl (Or.inr (Or.inl rfl))
  have h3 : ignoredLine [102, 111, 111, 61, 49, 10] := Or.inr (Or.inr (by decide))
  have hall : ∀ l ∈ fgetsLines [35, 32, 99, 10, 10, 102, 111, 111, 61, 49, 10] [],
      ignoredLine l := by
    have e : fgetsLines [35, 32, 99, 10, 10, 102, 111, 111, 61, 49, 10] [] =
        [[35, 32, 99, 10], [10], [102, 111, 111, 61, 49, 10]] := by decide
    rw [e]
    intro l hl
    simp only [List.mem_cons, List.mem_singleton, List.not_mem_nil, or_false] at hl
    rcases hl with rfl | rfl | rfl
    · exact h1
    · exact h2
    · exact h3
  ⟨h1, h2, h3,
    (processLine_frame (fun _ => 8080) ⟨DEFAULT_IP, 9090⟩ [35, 32, 99, 10]
      [35, 32, 99, 10, 10, 102, 111, 111, 61, 49, 10]).1 h1,
    (processLine_frame (fun _ => 8080) ⟨DEFAULT_IP, 9090⟩ [35, 32, 99, 10]
      [35, 32, 99, 10, 10, 102, 111, 111, 61, 49, 10]).2.2.2.1 hall,
    by decide, by decide⟩

set_option maxRecDepth 20000 in
/-- A line longer than one `fgets` call returns is processed in pieces: the comment line
made of `#`, 254 times `x` and `ip=1` is stored as `#xx...x` and then as `ip=1`, and
loading it over the defaults sets `ip_address` to `1`. -/
theorem load_udp_config_long_comment :
    load_udp_config (fun _ => 0) ⟨DEFAULT_IP, 9090⟩
      (some (35 :: (List.replicate 254 120 ++ [105, 112, 61, 49, 10]))) =
        (1, ⟨[49], 9090⟩) := by
  have e : fgetsLines (35 :: (List.replicate 254 120 ++ [105, 112, 61, 49, 10])) [] =
      [35 :: List.replicate 254 120, [105, 112, 61, 49, 10]] := by
    decide
  show (1, (fgetsLines _ []).foldl (processLine (fun _ => 0)) ⟨DEFAULT_IP, 9090⟩) = _
  rw [e]
  decide

/-- C16, what the code does: once the file is open the result is 1 whatever the file
holds. The file `garbage` has one line that is neither a comment nor blank and for which
`sscanf` returns 1, not 2, and loading it returns 1 and leaves the defaults. -/
theorem load_udp_config_returns_one :
    (∀ (atoi : List Nat → Int) (config : UDPConfig) (content : List Nat),
      (load_udp_config atoi config (some content)).1 = 1) ∧
    fgetsLines [103, 97, 114, 98, 97, 103, 101, 10] [] =
      [[103, 97, 114, 98, 97, 103, 101, 10]] ∧
    (sscanfKeyValue (cString [103, 97, 114, 98, 97, 103, 101, 10])).1 = 1 ∧
    load_udp_config (fun _ => 0) ⟨DEFAULT_IP, 9090⟩
      (some [103, 97, 114, 98, 97, 103, 101, 10]) = (1, ⟨DEFAULT_IP, 9090⟩) ∧
    (∀ (atoi : List Nat → Int) (config : UDPConfig),
      (load_udp_config atoi config none).1 = 0) := by
  refine ⟨fun _ _ _ => rfl, by decide, by decide, by decide, fun _ _ => rfl⟩

end QPSK
